import Mathlib

/-!
Verification of the code-couplet coupling consistency engine.

This file gives a shallow embedding, in Lean 4, of the core of the
code-couplet repository: the range translator (`schemaTools.ts`), the
validator (`validation.ts`), the schema store (`schema.ts`) and the
per-root schema model (`SchemaIndex.ts`).  JavaScript strings are
embedded as `List Char`, machine numbers as `Int`, fallible operations
as `Option`/`Except`, and the stateful schema model as explicit state
passing.  Each definition is translated from the corresponding
TypeScript function; in-place mutation of a list of ranges becomes a
`List.map` of the per-element loop body, and a mutated boolean flag
becomes a `List.foldl`.

Where the repository has several variants of the same module, the
embedding follows the variant that the current `SchemaIndex.ts`
imports (the `schemaTools` variant that exports
`updateOverlappingComments` and compares `sr.start.char >= cr.end.character`).
-/

namespace CodeCouplet

/-! ### JavaScript string helpers (over `List Char`) -/

/-- First index at which `pat` occurs in `s` (JS `String.indexOf` search),
as an `Option`. -/
def firstOcc? (pat : List Char) : List Char → Option Nat
  | [] => if pat <+: ([] : List Char) then some 0 else none
  | c :: rest =>
    if pat <+: (c :: rest) then some 0
    else (firstOcc? pat rest).map (· + 1)

/-- JS `String.prototype.indexOf`: first occurrence index, `-1` if absent. -/
def indexOfI (s pat : List Char) : Int :=
  match firstOcc? pat s with
  | some i => (i : Int)
  | none => -1

/-- Port of `countNewLines` from `schemaTools.ts`: the number of
occurrences of `"\n"` found by the repeated-`indexOf` loop, i.e. the
number of `'\n'` characters. -/
def countNewLines (text : List Char) : Nat :=
  text.count '\n'

/-- Last index of `c` in `s`, `-1` if absent (JS `lastIndexOf` for a
one-character pattern). -/
def lastIndexOfChar (c : Char) (s : List Char) : Int :=
  match (s.reverse.findIdx? (· = c)) with
  | some revIdx => (s.length : Int) - 1 - revIdx
  | none => -1

/-- Port of `lastLineLength` from `schemaTools.ts`: length of the text
after the final `'\n'`, or of the whole string when there is none. -/
def lastLineLength (text : List Char) : Nat :=
  match lastIndexOfChar '\n' text with
  | -1 => text.length
  | i => (((text.length : Int) - i - 1)).toNat

/-! ### Positions and ranges

`Position` covers both the schema `Position` (`{line, char}`) and the
vscode `Position` (`{line, character}`); `SRange` covers both range
types.  Coordinates are `Int` (JS numbers under ordinary arithmetic). -/

structure Position where
  line : Int
  char : Int
deriving DecidableEq, Repr

structure SRange where
  start : Position
  «end» : Position
deriving DecidableEq, Repr

/-- vscode `Position.isBeforeOrEqual`: lexicographic (line, char) order. -/
def Position.isBeforeOrEqual (a b : Position) : Bool :=
  decide (a.line < b.line) || (decide (a.line = b.line) && decide (a.char ≤ b.char))

/-- vscode `Position.isAfterOrEqual`. -/
def Position.isAfterOrEqual (a b : Position) : Bool :=
  b.isBeforeOrEqual a

/-- vscode `Range.contains` restricted to a range argument:
`this.start <= r.start && r.end <= this.end`. -/
def SRange.containsRange (outer inner : SRange) : Bool :=
  outer.start.isBeforeOrEqual inner.start && inner.«end».isBeforeOrEqual outer.«end»

/-- A single text edit as delivered by vscode:
`TextDocumentContentChangeEvent` restricted to the fields the
translator reads (`range` and `text`). -/
structure ChangeEvent where
  range : SRange
  text : List Char
deriving DecidableEq, Repr

/-! ### Range translator (`schemaTools.ts`) -/

/-- Loop body of `updateNonOverlappingComments` for one tracked range
`sr` (the in-place mutation of `sr` becomes returning the new range). -/
def updateNonOverlapOne (change : ChangeEvent) (sr : SRange) : SRange :=
  let cr := change.range
  let newLines : Int := countNewLines change.text
  -- lineDelta = how much to shift all ranges that start AFTER the changed line
  let lineDelta : Int := newLines - (cr.«end».line - cr.start.line)
  let originalChars : Int :=
    if cr.«end».line = cr.start.line then cr.«end».char - cr.start.char else cr.«end».char
  -- charDelta = how much to shift all ranges ON the changed line (but AFTER the change)
  let charDelta : Int := (lastLineLength change.text : Int) - originalChars
  if cr.«end».line < sr.start.line then
    ⟨⟨sr.start.line + lineDelta, sr.start.char⟩, ⟨sr.«end».line + lineDelta, sr.«end».char⟩⟩
  else if sr.start.line = cr.«end».line ∧ cr.«end».char ≤ sr.start.char then
    let s : Position := ⟨sr.start.line + lineDelta, sr.start.char + charDelta⟩
    let e : Position := ⟨sr.«end».line + lineDelta, sr.«end».char⟩
    if e.line = s.line then ⟨s, ⟨e.line, e.char + charDelta⟩⟩ else ⟨s, e⟩
  else sr

/-- Port of `updateNonOverlappingComments`: maps the loop body over the
list of tracked ranges; `wasUpdated` is assigned `true` unconditionally
at the end of every loop iteration, which the fold reproduces. -/
def updateNonOverlappingComments (change : ChangeEvent) (schemaRanges : List SRange) :
    List SRange × Bool :=
  (schemaRanges.map (updateNonOverlapOne change),
   schemaRanges.foldl (fun _ _ => true) false)

/-- Loop body of `updateOverlappingComments` for one overlapping range. -/
def updateOverlapOne (change : ChangeEvent) (sr : SRange) : SRange :=
  -- Is the whole sr deleted? If change start <= sr start and sr end <= change end
  let isDeleted := change.range.containsRange sr
  if isDeleted then ⟨change.range.start, change.range.start⟩
  else
    -- Did the change overlap the start of the sr? Then set the sr start to the change end
    let s := if change.range.start.isBeforeOrEqual sr.start then change.range.«end» else sr.start
    -- Did the change overlap the end of the sr? Then set the sr end to the change start
    let e := if change.range.«end».isAfterOrEqual sr.«end» then change.range.start else sr.«end»
    ⟨s, e⟩

/-- Per-range `wasUpdated` contribution of `updateOverlappingComments`. -/
def updateOverlapFlag (change : ChangeEvent) (sr : SRange) : Bool :=
  change.range.containsRange sr
    || change.range.start.isBeforeOrEqual sr.start
    || change.range.«end».isAfterOrEqual sr.«end»

/-- Port of `updateOverlappingComments`. -/
def updateOverlappingComments (change : ChangeEvent) (overlappingRanges : List SRange) :
    List SRange × Bool :=
  (overlappingRanges.map (updateOverlapOne change),
   overlappingRanges.foldl (fun w sr => w || updateOverlapFlag change sr) false)

/-- Predicate of `findOverlappingRanges`: either endpoint of the change
lies inside the schema range. -/
def overlapsChange (change : ChangeEvent) (sr : SRange) : Bool :=
  let srStart := sr.start
  let srEnd := sr.«end»
  (srStart.isBeforeOrEqual change.range.start && srEnd.isAfterOrEqual change.range.start)
    || (srStart.isBeforeOrEqual change.range.«end» && srEnd.isAfterOrEqual change.range.«end»)

/-- Port of `findOverlappingRanges`. -/
def findOverlappingRanges (change : ChangeEvent) (schemaRanges : List SRange) : List SRange :=
  schemaRanges.filter (overlapsChange change)

/-! ### Text documents

Embedding of `vscode-languageserver-textdocument`'s `TextDocument`
(`getText`, `offsetAt`, `positionAt`); vscode's own document model uses
the same offset conversions, so the editor side reuses these. -/

/-- Offsets just after each end-of-line (`\r\n`, `\r` or `\n`),
accumulated from position `i`; mirror of `computeLineOffsets` with
`isAtLineStart = false`. -/
def lineOffsetsAux : List Char → Nat → List Nat
  | '\r' :: '\n' :: rest, i => (i + 2) :: lineOffsetsAux rest (i + 2)
  | '\r' :: rest, i => (i + 1) :: lineOffsetsAux rest (i + 1)
  | '\n' :: rest, i => (i + 1) :: lineOffsetsAux rest (i + 1)
  | _ :: rest, i => lineOffsetsAux rest (i + 1)
  | [], _ => []

/-- Mirror of `computeLineOffsets(text, true)`: the start offset of each
line of `content`. -/
def lineOffsets (content : List Char) : List Nat :=
  0 :: lineOffsetsAux content 0

/-- Mirror of `TextDocument.offsetAt`: clamps the line to the document
and the character to the containing line (up to the start of the next
line). -/
def offsetAt (content : List Char) (p : Position) : Nat :=
  let lofs := lineOffsets content
  if (lofs.length : Int) ≤ p.line then content.length
  else if p.line < 0 then 0
  else
    let lineOffset : Int := (lofs.getD p.line.toNat 0 : Nat)
    let nextLineOffset : Int :=
      if p.line.toNat + 1 < lofs.length then (lofs.getD (p.line.toNat + 1) 0 : Nat)
      else (content.length : Int)
    (max (min (lineOffset + p.char) nextLineOffset) lineOffset).toNat

/-- Mirror of `TextDocument.positionAt`: clamps the offset to the
content, then finds the greatest line whose start offset is at most the
offset. -/
def positionAt (content : List Char) (offset : Int) : Position :=
  let o : Int := max (min offset (content.length : Int)) 0
  let lofs := lineOffsets content
  let line : Nat := (lofs.filter (fun x => (x : Int) ≤ o)).length - 1
  ⟨(line : Int), o - (lofs.getD line 0 : Nat)⟩

/-- Mirror of `TextDocument.getText(range)`:
`content.substring(offsetAt(range.start), offsetAt(range.end))`
(JS `substring` swaps its arguments when given in descending order). -/
def getTextRange (content : List Char) (r : SRange) : List Char :=
  let s := offsetAt content r.start
  let e := offsetAt content r.«end»
  let a := min s e
  let b := max s e
  (content.drop a).take (b - a)

/-- A document snapshot: its uri (embedded as its path string) and its
full text. -/
structure TextDoc where
  uri : List Char
  content : List Char
deriving DecidableEq, Repr

/-- The editor applying one content change to a document: the text
between the offsets of the edited range is replaced by the inserted
text.  This models the document mutation that vscode performs for the
`TextDocumentContentChangeEvent` the translator receives. -/
def applyChange (content : List Char) (change : ChangeEvent) : List Char :=
  let s := offsetAt content change.range.start
  let e := offsetAt content change.range.«end»
  let a := min s e
  let b := max s e
  content.take a ++ change.text ++ content.drop b

/-! ### Range-translator properties -/

/-- Lexicographic (line, char) order on positions, as a proposition. -/
def posLE (a b : Position) : Prop :=
  a.line < b.line ∨ (a.line = b.line ∧ a.char ≤ b.char)

instance (a b : Position) : Decidable (posLE a b) := by
  unfold posLE; exact inferInstance

theorem isBeforeOrEqual_iff (a b : Position) :
    a.isBeforeOrEqual b = true ↔ posLE a b := by
  simp [Position.isBeforeOrEqual, posLE]

theorem foldl_const_true (l : List SRange) :
    l.foldl (fun _ _ => true) true = true := by
  induction l with
  | nil => rfl
  | cons a l ih => simpa [List.foldl] using ih

/-- Behaviour of `updateOverlappingComments` on one overlapping range,
written from the corrected claim: the range collapses to a zero-width
range at `editedRange.start` only when the edited range fully contains
it; otherwise its start moves to `editedRange.end` when the edit begins
at or before the range's start, and its end moves to
`editedRange.start` when the edit ends at or after the range's end. -/
def overlapEditPolicy (change : ChangeEvent) (r : SRange) : SRange :=
  if posLE change.range.start r.start ∧ posLE r.«end» change.range.«end» then
    ⟨change.range.start, change.range.start⟩
  else
    ⟨if posLE change.range.start r.start then change.range.«end» else r.start,
     if posLE r.«end» change.range.«end» then change.range.start else r.«end»⟩

/-- C1 (counterexample): the edit replacing `[(0,0),(0,2))` with `"xy"`
overlaps the tracked range `[(0,1),(0,5)]` (it is neither strictly
before nor strictly after it), yet `updateOverlappingComments` does not
collapse the range to a zero-width range at `editedRange.start`: it
applies a partial shift instead, and no `needsRevalidation` flag exists
in its output. -/
theorem c1_overlap_counterexample :
    overlapsChange ⟨⟨⟨0, 0⟩, ⟨0, 2⟩⟩, ['x', 'y']⟩ ⟨⟨0, 1⟩, ⟨0, 5⟩⟩ = true ∧
    (updateOverlappingComments ⟨⟨⟨0, 0⟩, ⟨0, 2⟩⟩, ['x', 'y']⟩ [⟨⟨0, 1⟩, ⟨0, 5⟩⟩]).1 =
      [⟨⟨0, 2⟩, ⟨0, 5⟩⟩] ∧
    (updateOverlappingComments ⟨⟨⟨0, 0⟩, ⟨0, 2⟩⟩, ['x', 'y']⟩ [⟨⟨0, 1⟩, ⟨0, 5⟩⟩]).1 ≠
      [⟨⟨0, 0⟩, ⟨0, 0⟩⟩] := by
  refine ⟨by decide, by decide, by decide⟩

/-- C1 (amended): for every single edit and tracked range, the
translator's overlapping-range update collapses the range to a
zero-width range at `editedRange.start` exactly when the edited range
fully contains it, and otherwise applies the partial best-effort shift
of `overlapEditPolicy`; it produces no `needsRevalidation` flag. -/
theorem c1_overlap_update_eq_policy (change : ChangeEvent) (r : SRange) :
    updateOverlapOne change r = overlapEditPolicy change r := by
  unfold updateOverlapOne overlapEditPolicy SRange.containsRange
  by_cases h1 : posLE change.range.start r.start <;>
    by_cases h2 : posLE r.«end» change.range.«end» <;>
      simp [Position.isAfterOrEqual, (isBeforeOrEqual_iff _ _).2, h1, h2,
        fun a b => (isBeforeOrEqual_iff a b).not.2]

/-- C2: a tracked range whose start is at or after `editedRange.end`
is shifted by `lineDelta = linesInserted − (editedRange.end.line −
editedRange.start.line)` on both endpoint lines; when it begins on the
edit's last affected line, `charDelta` is additionally added to its
start character, and to its end character as well when the range is
single-line. -/
theorem c2_shift_strictly_after (change : ChangeEvent) (r : SRange)
    (h : change.range.«end».isBeforeOrEqual r.start = true) :
    updateNonOverlapOne change r =
      (let lineDelta : Int :=
        (countNewLines change.text : Int) -
          (change.range.«end».line - change.range.start.line)
       let originalChars : Int :=
        if change.range.«end».line = change.range.start.line then
          change.range.«end».char - change.range.start.char
        else change.range.«end».char
       let charDelta : Int := (lastLineLength change.text : Int) - originalChars
       if r.start.line = change.range.«end».line then
         ⟨⟨r.start.line + lineDelta, r.start.char + charDelta⟩,
          ⟨r.«end».line + lineDelta,
           if r.«end».line = r.start.line then r.«end».char + charDelta else r.«end».char⟩⟩
       else
         ⟨⟨r.start.line + lineDelta, r.start.char⟩,
          ⟨r.«end».line + lineDelta, r.«end».char⟩⟩) := by
  rw [isBeforeOrEqual_iff] at h
  unfold updateNonOverlapOne
  rcases h with h | ⟨h1, h2⟩
  · -- the range starts on a strictly later line than the edit's last line
    rw [if_pos h, if_neg (by omega)]
  · -- the range starts on the edit's last affected line, at or after its end
    rw [if_neg (by omega), if_pos ⟨h1.symm, h2⟩, if_pos h1.symm]
    have h5 : (r.«end».line +
          ((countNewLines change.text : Int) -
            (change.range.«end».line - change.range.start.line)) =
        r.start.line +
          ((countNewLines change.text : Int) -
            (change.range.«end».line - change.range.start.line))) ↔
        r.«end».line = r.start.line := by omega
    simp only [h5]
    by_cases h3 : r.«end».line = r.start.line <;> simp [h3]

/-- C2 (witness, Scenario A): inserting a blank line at `(0,0)`
increments the line fields of a comment range on line 0 and a code
range on line 1 by exactly 1. -/
theorem c2_shift_strictly_after_witness :
    updateNonOverlapOne ⟨⟨⟨0, 0⟩, ⟨0, 0⟩⟩, ['\n']⟩ ⟨⟨0, 0⟩, ⟨0, 10⟩⟩ =
      ⟨⟨1, 0⟩, ⟨1, 10⟩⟩ ∧
    updateNonOverlapOne ⟨⟨⟨0, 0⟩, ⟨0, 0⟩⟩, ['\n']⟩ ⟨⟨1, 0⟩, ⟨1, 6⟩⟩ =
      ⟨⟨2, 0⟩, ⟨2, 6⟩⟩ := by
  constructor
  · exact (c2_shift_strictly_after ⟨⟨⟨0, 0⟩, ⟨0, 0⟩⟩, ['\n']⟩ ⟨⟨0, 0⟩, ⟨0, 10⟩⟩
      (by decide)).trans (by decide)
  · exact (c2_shift_strictly_after ⟨⟨⟨0, 0⟩, ⟨0, 0⟩⟩, ['\n']⟩ ⟨⟨1, 0⟩, ⟨1, 6⟩⟩
      (by decide)).trans (by decide)

/-- C3 (code bug): deleting `[(0,3),(1,2))` from `"abcdef\nghijkl"` is
an edit entirely before the text covered by the tracked range
`[(1,4),(1,5)]` (which covers `"k"`), yet after translation the range's
new coordinates in the post-edit document `"abcijkl"` cover `"c"`, not
`"k"`: the translated substring is not preserved, because the
translator's `charDelta` omits the edit start's character when the
edited range spans lines but the inserted text does not. -/
theorem c3_substring_not_preserved :
    (ChangeEvent.mk ⟨⟨0, 3⟩, ⟨1, 2⟩⟩ []).range.«end».isBeforeOrEqual
      (SRange.mk ⟨1, 4⟩ ⟨1, 5⟩).start = true ∧
    updateNonOverlapOne ⟨⟨⟨0, 3⟩, ⟨1, 2⟩⟩, []⟩ ⟨⟨1, 4⟩, ⟨1, 5⟩⟩ = ⟨⟨0, 2⟩, ⟨0, 3⟩⟩ ∧
    getTextRange "abcdef\nghijkl".toList ⟨⟨1, 4⟩, ⟨1, 5⟩⟩ = ['k'] ∧
    applyChange "abcdef\nghijkl".toList ⟨⟨⟨0, 3⟩, ⟨1, 2⟩⟩, []⟩ = "abcijkl".toList ∧
    getTextRange (applyChange "abcdef\nghijkl".toList ⟨⟨⟨0, 3⟩, ⟨1, 2⟩⟩, []⟩)
        (updateNonOverlapOne ⟨⟨⟨0, 3⟩, ⟨1, 2⟩⟩, []⟩ ⟨⟨1, 4⟩, ⟨1, 5⟩⟩) = ['c'] ∧
    getTextRange (applyChange "abcdef\nghijkl".toList ⟨⟨⟨0, 3⟩, ⟨1, 2⟩⟩, []⟩)
        (updateNonOverlapOne ⟨⟨⟨0, 3⟩, ⟨1, 2⟩⟩, []⟩ ⟨⟨1, 4⟩, ⟨1, 5⟩⟩) ≠
      getTextRange "abcdef\nghijkl".toList ⟨⟨1, 4⟩, ⟨1, 5⟩⟩ := by
  refine ⟨by decide, by decide, by decide, by decide, by decide, by decide⟩

/-- C10: `updateNonOverlappingComments` sets `wasUpdated` at the end of
every loop iteration unconditionally, so it returns `wasUpdated = true`
for every change and every non-empty list of tracked ranges. -/
theorem c10_wasUpdated_unconditional (change : ChangeEvent) (rs : List SRange)
    (h : rs ≠ []) :
    (updateNonOverlappingComments change rs).2 = true := by
  cases rs with
  | nil => exact absurd rfl h
  | cons a l =>
    unfold updateNonOverlappingComments
    simpa [List.foldl] using foldl_const_true l

/-- C10 (witness): an edit that shifts nothing still reports
`wasUpdated = true` on a one-range list. -/
theorem c10_wasUpdated_witness :
    (updateNonOverlappingComments ⟨⟨⟨5, 0⟩, ⟨5, 0⟩⟩, ['z']⟩ [⟨⟨0, 0⟩, ⟨0, 1⟩⟩]).2 = true := by
  have h : ([⟨⟨0, 0⟩, ⟨0, 1⟩⟩] : List SRange) ≠ [] := by decide
  exact c10_wasUpdated_unconditional ⟨⟨⟨5, 0⟩, ⟨5, 0⟩⟩, ['z']⟩ [⟨⟨0, 0⟩, ⟨0, 1⟩⟩] h

/-! ### Splitting and searching (JS `replace`/`lastIndexOf` semantics) -/

theorem firstOcc?_some_occ {pat s : List Char} {i : Nat}
    (h : firstOcc? pat s = some i) : pat <+: s.drop i := by
  induction s generalizing i with
  | nil =>
    rw [firstOcc?] at h
    split at h
    · cases h; simpa using ‹pat <+: ([] : List Char)›
    · cases h
  | cons c rest ih =>
    rw [firstOcc?] at h
    split at h
    · cases h; simpa using ‹pat <+: c :: rest›
    · obtain ⟨j, hj, rfl⟩ := Option.map_eq_some'.mp h
      simpa using ih hj

theorem firstOcc?_min {pat s : List Char} {i : Nat}
    (h : firstOcc? pat s = some i) {j : Nat} (hj : j < i) :
    ¬ pat <+: s.drop j := by
  induction s generalizing i j with
  | nil =>
    rw [firstOcc?] at h
    split at h
    · cases h; omega
    · cases h
  | cons c rest ih =>
    rw [firstOcc?] at h
    split at h
    · cases h; omega
    · rename_i hne
      obtain ⟨j', hj', rfl⟩ := Option.map_eq_some'.mp h
      cases j with
      | zero => simpa using hne
      | succ j0 => simpa using ih hj' (by omega)

theorem firstOcc?_eq_some {pat s : List Char} {m : Nat}
    (h1 : pat <+: s.drop m) (h2 : ∀ j, j < m → ¬ pat <+: s.drop j) :
    firstOcc? pat s = some m := by
  induction s generalizing m with
  | nil =>
    have hm : m = 0 := by
      by_contra hm0
      exact h2 0 (Nat.pos_of_ne_zero hm0) (by simpa using h1)
    subst hm
    rw [firstOcc?, if_pos (by simpa using h1)]
  | cons c rest ih =>
    cases m with
    | zero => rw [firstOcc?, if_pos (by simpa using h1)]
    | succ m0 =>
      rw [firstOcc?, if_neg (by simpa using h2 0 (Nat.succ_pos _))]
      rw [ih (by simpa using h1) (fun j hj => by simpa using h2 (j + 1) (by omega))]
      rfl

theorem firstOcc?_eq_none {pat s : List Char}
    (h : ∀ i, ¬ pat <+: s.drop i) : firstOcc? pat s = none := by
  cases heq : firstOcc? pat s with
  | none => rfl
  | some i => exact absurd (firstOcc?_some_occ heq) (h i)

theorem firstOcc?_bound {pat s : List Char} {i : Nat}
    (h : firstOcc? pat s = some i) (hne : pat ≠ []) :
    i + pat.length ≤ s.length := by
  have hocc := firstOcc?_some_occ h
  have hlen := hocc.length_le
  have hpos : 0 < pat.length := List.length_pos.mpr hne
  simp only [List.length_drop] at hlen
  omega

/-- Fuel-driven worker for `splitOnL`; `s.length` fuel always suffices
because every found occurrence consumes at least one character. -/
def splitOnGo (c0 : Char) (cs : List Char) : Nat → List Char → List (List Char)
  | 0, s => [s]
  | fuel + 1, s =>
    match firstOcc? (c0 :: cs) s with
    | none => [s]
    | some i => s.take i :: splitOnGo c0 cs fuel (s.drop (i + (c0 :: cs).length))

/-- JS first-occurrence scanning split (the pattern is given as a head
character plus a tail, so it is never empty). -/
def splitOnL (c0 : Char) (cs : List Char) (s : List Char) : List (List Char) :=
  splitOnGo c0 cs s.length s

theorem firstOcc?_nil_none {c0 : Char} {cs : List Char} :
    firstOcc? (c0 :: cs) [] = none := by
  rw [firstOcc?, if_neg (by simp)]

theorem splitOnGo_congr {c0 : Char} {cs : List Char} :
    ∀ {f1 f2 : Nat} {s : List Char}, s.length ≤ f1 → s.length ≤ f2 →
      splitOnGo c0 cs f1 s = splitOnGo c0 cs f2 s := by
  intro f1
  induction f1 with
  | zero =>
    intro f2 s h1 _
    have hs : s = [] := List.length_eq_zero.mp (Nat.le_zero.mp h1)
    subst hs
    cases f2 with
    | zero => rfl
    | succ g => simp [splitOnGo, firstOcc?_nil_none]
  | succ f ih =>
    intro f2 s h1 h2
    cases f2 with
    | zero =>
      have hs : s = [] := List.length_eq_zero.mp (Nat.le_zero.mp h2)
      subst hs
      simp [splitOnGo, firstOcc?_nil_none]
    | succ g =>
      show splitOnGo c0 cs (f + 1) s = splitOnGo c0 cs (g + 1) s
      rw [splitOnGo, splitOnGo]
      cases heq : firstOcc? (c0 :: cs) s with
      | none => rfl
      | some i =>
        have hb := firstOcc?_bound heq (by simp)
        simp only [List.length_cons] at hb
        have hlen : (s.drop (i + (c0 :: cs).length)).length ≤ f := by
          simp only [List.length_drop, List.length_cons]
          omega
        have hlen2 : (s.drop (i + (c0 :: cs).length)).length ≤ g := by
          simp only [List.length_drop, List.length_cons]
          omega
        dsimp only
        rw [ih hlen hlen2]

theorem splitOnL_of_none {c0 : Char} {cs s : List Char}
    (h : firstOcc? (c0 :: cs) s = none) : splitOnL c0 cs s = [s] := by
  unfold splitOnL
  cases hl : s.length with
  | zero => rfl
  | succ m => rw [splitOnGo, h]

theorem splitOnL_of_some {c0 : Char} {cs s : List Char} {i : Nat}
    (h : firstOcc? (c0 :: cs) s = some i) :
    splitOnL c0 cs s = s.take i :: splitOnL c0 cs (s.drop (i + (c0 :: cs).length)) := by
  have hb := firstOcc?_bound h (by simp)
  simp only [List.length_cons] at hb
  unfold splitOnL
  cases hl : s.length with
  | zero => omega
  | succ m =>
    rw [splitOnGo, h]
    have hlen : (s.drop (i + (c0 :: cs).length)).length ≤ m := by
      simp only [List.length_drop, List.length_cons]
      omega
    dsimp only
    rw [splitOnGo_congr hlen (le_refl _)]

/-- JS `String.prototype.replace` with a global pattern: non-overlapping
occurrences are consumed left to right, which is split-on-pattern
followed by join-with-replacement. -/
def jsReplaceAll (c0 : Char) (cs : List Char) (rep : List Char) (s : List Char) : List Char :=
  List.intercalate rep (splitOnL c0 cs s)

/-- Search for the last occurrence of `pat` starting at position at most
`q`, scanning downwards. -/
def lastOccAux (pat s : List Char) : Nat → Option Nat
  | 0 => if pat <+: s then some 0 else none
  | q + 1 => if pat <+: s.drop (q + 1) then some (q + 1) else lastOccAux pat s q

/-- JS `String.prototype.lastIndexOf`: last occurrence index, `-1` if
absent. -/
def lastIndexOfL (pat s : List Char) : Int :=
  match lastOccAux pat s s.length with
  | some q => (q : Int)
  | none => -1

/-! ### Posix path helpers (vscode-uri `Utils.joinPath` / `Utils.dirname`
delegate to node's `path.posix`) -/

/-- Core loop of node's `path.posix` `normalizeString`: resolves `.` and
`..` segments against a stack. -/
def normSegs (allowAboveRoot : Bool) : List (List Char) → List (List Char) → List (List Char)
  | [], stack => stack.reverse
  | s :: rest, stack =>
    if s = [] ∨ s = ['.'] then normSegs allowAboveRoot rest stack
    else if s = ['.', '.'] then
      match stack with
      | t :: stack' =>
        if t = ['.', '.'] then normSegs allowAboveRoot rest (s :: t :: stack')
        else normSegs allowAboveRoot rest stack'
      | [] =>
        if allowAboveRoot then normSegs allowAboveRoot rest [s]
        else normSegs allowAboveRoot rest []
    else normSegs allowAboveRoot rest (s :: stack)

/-- node `path.posix.normalize`. -/
def posixNormalize (p : List Char) : List Char :=
  if p = [] then ['.']
  else
    let isAbs := p.head? = some '/'
    let trailingSeparator := p.getLast? = some '/'
    let segs := normSegs (!isAbs) (splitOnL '/' [] p) []
    let body := List.intercalate ['/'] segs
    if body = [] then
      if isAbs then ['/']
      else if trailingSeparator then ['.', '/'] else ['.']
    else
      let body' := if trailingSeparator then body ++ ['/'] else body
      if isAbs then '/' :: body' else body'

/-- node `path.posix.join` before normalization: concatenates the
non-empty fragments with `'/'`. -/
def posixJoinRaw (parts : List (List Char)) : List Char :=
  parts.foldl
    (fun acc part => if part = [] then acc else if acc = [] then part else acc ++ '/' :: part) []

/-- vscode-uri `Utils.joinPath` on the path component: node
`path.posix.join(base, ...frags)`. -/
def utilsJoinPath (base : List Char) (frags : List (List Char)) : List Char :=
  let joined := posixJoinRaw (base :: frags)
  if joined = [] then ['.'] else posixNormalize joined

/-- node `path.posix.dirname` (vscode-uri `Utils.dirname`): cut at the
last separator that precedes the trailing segment. -/
def posixDirname (p : List Char) : List Char :=
  if p = [] then ['.']
  else
    let hasRoot := p.head? = some '/'
    let rev1 := p.reverse.dropWhile (fun c => c = '/')
    let rev2 := rev1.dropWhile (fun c => c ≠ '/')
    if rev2.length ≤ 1 then (if hasRoot then ['/'] else ['.'])
    else if hasRoot ∧ rev2.length = 2 then ['/', '/']
    else (rev2.drop 1).reverse

/-! ### Schema store path mapping (`schema.ts`) -/

def PATH_TRANSFORM_FRAGMENT : List Char := ['c', 'C', 'C', 'c']

def KNOWN_FOLDER_NAME : List Char :=
  ['.', 'c', 'c', '_', 'm', 'a', 'p', 'p', 'i', 'n', 'g', 's']

def jsonSuffix : List Char := ['.', 'j', 's', 'o', 'n']

/-- Port of `buildSchemaPath(saveRoot, sourceURI)`: the source path
relative to the root (everything after `saveRoot.path.length + 1`) with
`/` replaced by the reserved token and `.json` appended, joined below
the marker folder. -/
def buildSchemaPath (saveRoot sourceURI : List Char) : List Char :=
  let sourcePath := sourceURI.drop (saveRoot.length + 1)
  let transformedSourcePath :=
    jsReplaceAll '/' [] PATH_TRANSFORM_FRAGMENT sourcePath ++ jsonSuffix
  utilsJoinPath saveRoot [KNOWN_FOLDER_NAME, transformedSourcePath]

/-- The anchored regex `\.json$` replacement by the empty string. -/
def stripJsonSuffix (s : List Char) : List Char :=
  if jsonSuffix <:+ s then s.take (s.length - jsonSuffix.length) else s

/-- Port of `schemaFileUriToSourceUri`. -/
def schemaFileUriToSourceUri (schemaFileUri : List Char) : List Char :=
  let sliceFrom : Int :=
    (KNOWN_FOLDER_NAME.length : Int) + lastIndexOfL KNOWN_FOLDER_NAME schemaFileUri + 1
  let sourcePath :=
    jsReplaceAll 'c' ['C', 'C', 'c'] ['/'] (stripJsonSuffix (schemaFileUri.drop sliceFrom.toNat))
  -- The schema file is in the folder under the root, so go up one more to reach root
  let saveRoot := posixDirname (posixDirname schemaFileUri)
  utilsJoinPath saveRoot [sourcePath]

/-! ### Inverse lemmas for the path transform -/

theorem intercalate_nil_parts (sep : List Char) :
    List.intercalate sep ([] : List (List Char)) = [] := by
  simp [List.intercalate]

theorem intercalate_single (sep x : List Char) :
    List.intercalate sep [x] = x := by
  simp [List.intercalate]

theorem intercalate_cons₂ (sep x y : List Char) (ys : List (List Char)) :
    List.intercalate sep (x :: y :: ys) = x ++ sep ++ List.intercalate sep (y :: ys) := by
  simp [List.intercalate, List.intersperse]

/-- A pattern that is a prefix of `a ++ t` and no longer than `a` is a
prefix of `a`. -/
theorem prefix_append_left {pat a t : List Char} (h : pat <+: a ++ t)
    (hlen : pat.length ≤ a.length) : pat <+: a := by
  have h1 : pat = (a ++ t).take pat.length := List.prefix_iff_eq_take.mp h
  rw [List.take_append_of_le_length hlen] at h1
  rw [h1]
  exact List.take_prefix _ _

/-- The separator has no occurrence in `p ++ sep` beginning strictly
inside `p` (this is the condition making the separator boundaries of a
join unambiguous to a left-to-right scan). -/
def sepClean (sep p : List Char) : Prop :=
  ∀ i, i < p.length → ¬ sep <+: (p ++ sep).drop i

theorem firstOcc?_none_of_sepClean {sep p : List Char} (hsep : sep ≠ [])
    (hc : sepClean sep p) : firstOcc? sep p = none := by
  apply firstOcc?_eq_none
  intro i hpre
  by_cases hi : i < p.length
  · refine hc i hi ?_
    rw [List.drop_append_of_le_length (le_of_lt hi)]
    exact hpre.trans (List.prefix_append _ _)
  · have hnil : p.drop i = [] := List.drop_eq_nil_of_le (le_of_not_lt hi)
    rw [hnil] at hpre
    exact hsep (List.prefix_nil.mp hpre)

theorem firstOcc?_boundary {sep p t : List Char} (hsep : sep ≠ [])
    (hc : sepClean sep p) :
    firstOcc? sep (p ++ (sep ++ t)) = some p.length := by
  apply firstOcc?_eq_some
  · rw [List.drop_left]
    exact List.prefix_append _ _
  · intro j hj hpre
    rw [← List.append_assoc] at hpre
    rw [List.drop_append_of_le_length (by simp; omega)] at hpre
    refine hc j hj (prefix_append_left hpre ?_)
    simp only [List.length_drop, List.length_append]
    omega

theorem splitOn_intercalate {c0 : Char} {cs : List Char} :
    ∀ (parts : List (List Char)), parts ≠ [] →
      (∀ p ∈ parts, sepClean (c0 :: cs) p) →
      splitOnL c0 cs (List.intercalate (c0 :: cs) parts) = parts := by
  intro parts
  induction parts with
  | nil => intro h; exact absurd rfl h
  | cons p rest ih =>
    intro _ hc
    cases rest with
    | nil =>
      rw [intercalate_single]
      exact splitOnL_of_none (firstOcc?_none_of_sepClean (by simp) (hc p (by simp)))
    | cons q rest' =>
      rw [intercalate_cons₂, List.append_assoc]
      rw [splitOnL_of_some (firstOcc?_boundary (by simp) (hc p (by simp)))]
      rw [List.take_left]
      have hdrop : (p ++ ((c0 :: cs) ++ List.intercalate (c0 :: cs) (q :: rest'))).drop
          (p.length + (c0 :: cs).length) = List.intercalate (c0 :: cs) (q :: rest') := by
        rw [← List.append_assoc, ← List.length_append]
        exact List.drop_left _ _
      rw [hdrop]
      rw [ih (by simp) (fun x hx => hc x (by simp [hx]))]

/-- A single-character separator is clean for any part avoiding it. -/
theorem sepClean_of_not_mem {c : Char} {p : List Char} (h : c ∉ p) :
    sepClean [c] p := by
  intro i hi hpre
  rw [List.drop_append_of_le_length (le_of_lt hi)] at hpre
  cases hd : p.drop i with
  | nil =>
    have := congrArg List.length hd
    simp only [List.length_drop, List.length_nil] at this
    omega
  | cons x xs =>
    rw [hd] at hpre
    have hx : c = x := by simpa using hpre
    have hxp : x ∈ p := List.mem_of_mem_drop (by rw [hd]; exact List.mem_cons_self x xs)
    rw [hx] at h
    exact h hxp

/-- The reserved token `cCCc` is clean for a part that does not contain
it and does not end with its self-overlapping fragment `cCC`. -/
theorem sepClean_token {p : List Char}
    (h1 : ¬ PATH_TRANSFORM_FRAGMENT <:+: p)
    (h2 : ¬ ['c', 'C', 'C'] <:+ p) :
    sepClean PATH_TRANSFORM_FRAGMENT p := by
  intro i hi hpre
  rw [List.drop_append_of_le_length (le_of_lt hi)] at hpre
  set a := p.drop i with ha
  have hlen : a.length = p.length - i := by rw [ha]; exact List.length_drop _ _
  have hk1 : 1 ≤ a.length := by omega
  by_cases hk : 4 ≤ a.length
  · -- the occurrence lies fully inside p
    have hta : PATH_TRANSFORM_FRAGMENT <+: a :=
      prefix_append_left hpre (by simp [PATH_TRANSFORM_FRAGMENT]; omega)
    obtain ⟨t, ht⟩ := hta
    refine h1 ⟨p.take i, t, ?_⟩
    rw [List.append_assoc, ht, ha, List.take_append_drop]
  · -- the occurrence straddles the boundary between p and the token
    obtain ⟨t, ht⟩ := hpre
    have hta : PATH_TRANSFORM_FRAGMENT.take a.length = a := by
      have h' := congrArg (List.take a.length) ht
      rwa [List.take_append_of_le_length (by simp [PATH_TRANSFORM_FRAGMENT]; omega),
        List.take_left] at h'
    have htd : PATH_TRANSFORM_FRAGMENT.drop a.length ++ t = PATH_TRANSFORM_FRAGMENT := by
      have h' := congrArg (List.drop a.length) ht
      rwa [List.drop_append_of_le_length (by simp [PATH_TRANSFORM_FRAGMENT]; omega),
        List.drop_left] at h'
    have hcase : a.length = 1 ∨ a.length = 2 ∨ a.length = 3 := by omega
    rcases hcase with h3 | h3 | h3
    · rw [h3] at htd
      have := congrArg List.head? htd
      simp [PATH_TRANSFORM_FRAGMENT] at this
    · rw [h3] at htd
      have := congrArg List.head? htd
      simp [PATH_TRANSFORM_FRAGMENT] at this
    · -- p ends with cCC
      rw [h3] at hta
      refine h2 ⟨p.take i, ?_⟩
      have htap : p.take i ++ a = p := by rw [ha, List.take_append_drop]
      rw [← hta] at htap
      simpa [PATH_TRANSFORM_FRAGMENT] using htap

/-- A path segment that survives posix normalization unchanged:
non-empty, separator-free, and not a dot segment. -/
def cleanSeg (s : List Char) : Prop :=
  s ≠ [] ∧ '/' ∉ s ∧ s ≠ ['.'] ∧ s ≠ ['.', '.']

instance (s : List Char) : Decidable (cleanSeg s) := by
  unfold cleanSeg; exact inferInstance

theorem normSegs_clean (a : Bool) :
    ∀ (segs stack : List (List Char)), (∀ s ∈ segs, cleanSeg s) →
      normSegs a segs stack = stack.reverse ++ segs := by
  intro segs
  induction segs with
  | nil => intro stack _; simp [normSegs]
  | cons s rest ih =>
    intro stack hc
    obtain ⟨h1, _, h3, h4⟩ := hc s (by simp)
    rw [normSegs.eq_def]
    dsimp only
    rw [if_neg (by simp [h1, h3]), if_neg h4]
    rw [ih (s :: stack) (fun x hx => hc x (by simp [hx]))]
    simp

theorem mem_intercalate {x : Char} {sep : List Char} :
    ∀ {parts : List (List Char)}, x ∈ List.intercalate sep parts →
      x ∈ sep ∨ ∃ p ∈ parts, x ∈ p := by
  intro parts
  induction parts with
  | nil => intro h; rw [intercalate_nil_parts] at h; cases h
  | cons p rest ih =>
    intro h
    cases rest with
    | nil =>
      rw [intercalate_single] at h
      exact Or.inr ⟨p, by simp, h⟩
    | cons q rest' =>
      rw [intercalate_cons₂] at h
      simp only [List.mem_append] at h
      rcases h with (h | h) | h
      · exact Or.inr ⟨p, by simp, h⟩
      · exact Or.inl h
      · rcases ih h with h' | ⟨r, hr, hxr⟩
        · exact Or.inl h'
        · exact Or.inr ⟨r, by simp [hr], hxr⟩

theorem intercalate_ne_nil {sep : List Char} :
    ∀ {parts : List (List Char)}, parts ≠ [] → (∀ p ∈ parts, p ≠ []) →
      List.intercalate sep parts ≠ [] := by
  intro parts
  induction parts with
  | nil => intro h; exact absurd rfl h
  | cons p rest _ =>
    intro _ hne
    cases rest with
    | nil => rw [intercalate_single]; exact hne p (by simp)
    | cons q rest' =>
      rw [intercalate_cons₂]
      simp only [ne_eq, List.append_eq_nil, not_and]
      intro h
      exact absurd h.1 (hne p (by simp))

theorem intercalate_getLast?_ne_slash :
    ∀ {parts : List (List Char)}, parts ≠ [] →
      (∀ p ∈ parts, p ≠ [] ∧ '/' ∉ p) →
      (List.intercalate ['/'] parts).getLast? ≠ some '/' := by
  intro parts
  induction parts with
  | nil => intro h; exact absurd rfl h
  | cons p rest ih =>
    intro _ hc
    cases rest with
    | nil =>
      rw [intercalate_single]
      obtain ⟨hne, hnm⟩ := hc p (by simp)
      rw [List.getLast?_eq_getLast_of_ne_nil hne]
      intro hcontra
      exact hnm (by
        have := List.getLast_mem hne
        rwa [Option.some_inj.mp hcontra] at this)
    | cons q rest' =>
      rw [intercalate_cons₂]
      have hrest : List.intercalate ['/'] (q :: rest') ≠ [] :=
        intercalate_ne_nil (by simp) (fun x hx => (hc x (by simp [hx])).1)
      rw [List.getLast?_append_of_ne_nil _ hrest]
      exact ih (by simp) (fun x hx => hc x (by simp [hx]))

/-- Intercalation of concatenated part lists (both non-empty). -/
theorem intercalate_append_parts {sep : List Char} :
    ∀ (xs ys : List (List Char)), xs ≠ [] → ys ≠ [] →
      List.intercalate sep (xs ++ ys) =
        List.intercalate sep xs ++ sep ++ List.intercalate sep ys := by
  intro xs
  induction xs with
  | nil => intro ys h; exact absurd rfl h
  | cons p rest ih =>
    intro ys _ hys
    cases rest with
    | nil =>
      cases ys with
      | nil => exact absurd rfl hys
      | cons y ys' =>
        rw [List.singleton_append, intercalate_cons₂, intercalate_single]
    | cons q rest' =>
      have h1 : (p :: q :: rest') ++ ys = p :: q :: (rest' ++ ys) := by simp
      rw [h1, intercalate_cons₂ sep p q (rest' ++ ys), ← List.cons_append q rest' ys,
        ih ys (by simp) hys, intercalate_cons₂ sep p q rest']
      simp [List.append_assoc]

theorem posixNormalize_clean (segs : List (List Char)) (hne : segs ≠ [])
    (hc : ∀ s ∈ segs, cleanSeg s) :
    posixNormalize ('/' :: List.intercalate ['/'] segs) =
      '/' :: List.intercalate ['/'] segs := by
  have hInz : List.intercalate ['/'] segs ≠ [] :=
    intercalate_ne_nil hne (fun p hp => (hc p hp).1)
  have hsplit : splitOnL '/' [] ('/' :: List.intercalate ['/'] segs) = [] :: segs := by
    have hocc : firstOcc? ['/'] ('/' :: List.intercalate ['/'] segs) = some 0 := by
      rw [firstOcc?, if_pos (by simp)]
    rw [splitOnL_of_some hocc]
    simp only [List.take_zero, List.length_cons, List.length_nil, Nat.zero_add,
      List.drop_succ_cons, List.drop_zero]
    rw [splitOn_intercalate segs hne (fun p hp => sepClean_of_not_mem (hc p hp).2.1)]
  have htrail : ('/' :: List.intercalate ['/'] segs).getLast? ≠ some '/' := by
    rw [show ('/' :: List.intercalate ['/'] segs) = ['/'] ++ List.intercalate ['/'] segs
      from rfl]
    rw [List.getLast?_append_of_ne_nil _ hInz]
    exact intercalate_getLast?_ne_slash hne (fun p hp => ⟨(hc p hp).1, (hc p hp).2.1⟩)
  have hnorm : normSegs false ([] :: segs) [] = segs := by
    rw [normSegs.eq_def]
    dsimp only
    rw [if_pos (Or.inl rfl)]
    rw [normSegs_clean false segs [] hc]
    rfl
  unfold posixNormalize
  rw [if_neg (by simp)]
  simp only [List.head?_cons, hsplit]
  simp [hnorm, hInz, htrail]

/-- node `posix.dirname` cuts a clean final segment. -/
theorem posixDirname_append {a b : List Char} (ha : a ≠ []) (hb : b ≠ [])
    (hbs : '/' ∉ b) (hlen : 2 ≤ a.length) :
    posixDirname (a ++ '/' :: b) = a := by
  obtain ⟨c, tl, hbr⟩ : ∃ c tl, b.reverse = c :: tl := by
    cases hbrev : b.reverse with
    | nil => exact absurd (by simpa using hbrev) hb
    | cons c tl => exact ⟨c, tl, rfl⟩
  have hcb : c ∈ b := by rw [← List.mem_reverse, hbr]; simp
  have hcslash : ¬ (c = '/') := fun h => hbs (h ▸ hcb)
  have hrev : (a ++ '/' :: b).reverse = b.reverse ++ '/' :: a.reverse := by
    simp [List.reverse_append]
  have hrev2 : ((a ++ '/' :: b).reverse.dropWhile (fun x => x = '/')).dropWhile
      (fun x => x ≠ '/') = '/' :: a.reverse := by
    rw [hrev, hbr, List.cons_append, List.dropWhile_cons_of_neg (by simpa using hcslash),
      ← List.cons_append, ← hbr]
    rw [List.dropWhile_append]
    have hempty : (b.reverse.dropWhile (fun x => x ≠ '/')).isEmpty = true := by
      rw [List.isEmpty_iff, List.dropWhile_eq_nil_iff]
      intro x hx
      have hxb : x ∈ b := List.mem_reverse.mp hx
      simpa using fun h : x = '/' => hbs (h ▸ hxb)
    rw [if_pos hempty, List.dropWhile_cons_of_neg (by simp)]
  unfold posixDirname
  rw [if_neg (by simp [ha])]
  simp only [hrev2]
  rw [if_neg (by simp only [List.length_cons, List.length_reverse]; omega)]
  rw [if_neg (by
    intro hcon
    have h2 := hcon.2
    simp only [List.length_cons, List.length_reverse] at h2
    omega)]
  simp

theorem lastOccAux_eq_some {pat s : List Char} {m : Nat} (hm : pat <+: s.drop m) :
    ∀ n, m ≤ n → (∀ q, m < q → q ≤ n → ¬ pat <+: s.drop q) →
      lastOccAux pat s n = some m := by
  intro n
  induction n with
  | zero =>
    intro h1 _
    have hm0 : m = 0 := by omega
    subst hm0
    rw [lastOccAux, if_pos (by simpa using hm)]
  | succ n ih =>
    intro h1 h2
    by_cases hmn : m = n + 1
    · subst hmn
      rw [lastOccAux, if_pos hm]
    · rw [lastOccAux, if_neg (h2 (n + 1) (by omega) (le_refl _))]
      exact ih (by omega) (fun q hq1 hq2 => h2 q hq1 (by omega))

theorem lastIndexOfL_eq {pat s : List Char} {m : Nat} (hm : pat <+: s.drop m)
    (hmax : ∀ q, m < q → ¬ pat <+: s.drop q) (hms : m ≤ s.length) :
    lastIndexOfL pat s = (m : Int) := by
  unfold lastIndexOfL
  rw [lastOccAux_eq_some hm s.length hms (fun q hq _ => hmax q hq)]

/-- Past the marker directory, the marker name occurs nowhere in the
storage path when the transformed file name avoids it. -/
theorem marker_no_occ_after {fn : List Char} (hmn : ¬ KNOWN_FOLDER_NAME <:+: fn) :
    ∀ k, 1 ≤ k → ¬ KNOWN_FOLDER_NAME <+: (KNOWN_FOLDER_NAME ++ '/' :: fn).drop k := by
  intro k hk hpre
  by_cases hk13 : k ≤ 12
  · rw [List.drop_append_of_le_length (by simp [KNOWN_FOLDER_NAME]; omega)] at hpre
    interval_cases k <;> simp [KNOWN_FOLDER_NAME] at hpre
  · have hkeq : k = (KNOWN_FOLDER_NAME ++ ['/']).length + (k - 13) := by
      simp [KNOWN_FOLDER_NAME]; omega
    rw [show KNOWN_FOLDER_NAME ++ '/' :: fn = (KNOWN_FOLDER_NAME ++ ['/']) ++ fn by simp,
      hkeq, List.drop_append] at hpre
    obtain ⟨t, ht⟩ := hpre
    exact hmn ⟨fn.take (k - 13), t, by rw [List.append_assoc, ht, List.take_append_drop]⟩

/-- Evaluation of `buildSchemaPath` on a root and a source path given by
clean segments: the result is the unnormalized storage path below the
marker folder. -/
theorem buildSchemaPath_clean (rootSegs relSegs : List (List Char))
    (hroot_ne : rootSegs ≠ []) (hrel_ne : relSegs ≠ [])
    (hrootc : ∀ s ∈ rootSegs, cleanSeg s)
    (hrelc : ∀ s ∈ relSegs, cleanSeg s) :
    buildSchemaPath ('/' :: List.intercalate ['/'] rootSegs)
        (('/' :: List.intercalate ['/'] rootSegs) ++ '/' :: List.intercalate ['/'] relSegs) =
      ('/' :: List.intercalate ['/'] rootSegs) ++ '/' ::
        (KNOWN_FOLDER_NAME ++ '/' ::
          (List.intercalate PATH_TRANSFORM_FRAGMENT relSegs ++ jsonSuffix)) := by
  have hfn_ne : List.intercalate PATH_TRANSFORM_FRAGMENT relSegs ++ jsonSuffix ≠ [] := by
    simp [jsonSuffix]
  have hfn_noslash : '/' ∉ List.intercalate PATH_TRANSFORM_FRAGMENT relSegs ++ jsonSuffix := by
    intro hx
    rcases List.mem_append.mp hx with hx | hx
    · rcases mem_intercalate hx with hx | ⟨p, hp, hxp⟩
      · simp [PATH_TRANSFORM_FRAGMENT] at hx
      · exact (hrelc p hp).2.1 hxp
    · simp [jsonSuffix] at hx
  have hfn_clean : cleanSeg (List.intercalate PATH_TRANSFORM_FRAGMENT relSegs ++ jsonSuffix) := by
    refine ⟨hfn_ne, hfn_noslash, ?_, ?_⟩
    · intro h
      have := congrArg List.length h
      simp [jsonSuffix] at this
    · intro h
      have := congrArg List.length h
      simp [jsonSuffix] at this
  have hdrop : (('/' :: List.intercalate ['/'] rootSegs) ++ '/' :: List.intercalate ['/'] relSegs).drop
      (('/' :: List.intercalate ['/'] rootSegs).length + 1) = List.intercalate ['/'] relSegs := by
    rw [show ('/' :: List.intercalate ['/'] rootSegs) ++ '/' :: List.intercalate ['/'] relSegs =
      (('/' :: List.intercalate ['/'] rootSegs) ++ ['/']) ++ List.intercalate ['/'] relSegs by simp,
      show ('/' :: List.intercalate ['/'] rootSegs).length + 1 =
        (('/' :: List.intercalate ['/'] rootSegs) ++ ['/']).length by simp]
    exact List.drop_left _ _
  have hreplace : jsReplaceAll '/' [] PATH_TRANSFORM_FRAGMENT (List.intercalate ['/'] relSegs) =
      List.intercalate PATH_TRANSFORM_FRAGMENT relSegs := by
    unfold jsReplaceAll
    rw [splitOn_intercalate relSegs hrel_ne
      (fun p hp => sepClean_of_not_mem (hrelc p hp).2.1)]
  have hjoinraw : posixJoinRaw [('/' :: List.intercalate ['/'] rootSegs), KNOWN_FOLDER_NAME,
      List.intercalate PATH_TRANSFORM_FRAGMENT relSegs ++ jsonSuffix] =
      ('/' :: List.intercalate ['/'] rootSegs) ++ '/' ::
        (KNOWN_FOLDER_NAME ++ '/' :: (List.intercalate PATH_TRANSFORM_FRAGMENT relSegs ++ jsonSuffix)) := by
    simp [posixJoinRaw, hfn_ne, KNOWN_FOLDER_NAME]
  have hsegsclean : ∀ s ∈ rootSegs ++ [KNOWN_FOLDER_NAME,
      List.intercalate PATH_TRANSFORM_FRAGMENT relSegs ++ jsonSuffix], cleanSeg s := by
    intro x hx
    rcases List.mem_append.mp hx with hx | hx
    · exact hrootc x hx
    · simp only [List.mem_cons, List.mem_singleton, List.not_mem_nil] at hx
      rcases hx with hx | hx | hx
      · rw [hx]; decide
      · rw [hx]; exact hfn_clean
      · cases hx
  have hshape : ('/' :: List.intercalate ['/'] rootSegs) ++ '/' ::
      (KNOWN_FOLDER_NAME ++ '/' :: (List.intercalate PATH_TRANSFORM_FRAGMENT relSegs ++ jsonSuffix)) =
      '/' :: List.intercalate ['/'] (rootSegs ++ [KNOWN_FOLDER_NAME,
        List.intercalate PATH_TRANSFORM_FRAGMENT relSegs ++ jsonSuffix]) := by
    rw [intercalate_append_parts rootSegs _ hroot_ne (by simp)]
    rw [intercalate_cons₂, intercalate_single]
    simp [List.append_assoc]
  have hnormalize : posixNormalize (('/' :: List.intercalate ['/'] rootSegs) ++ '/' ::
      (KNOWN_FOLDER_NAME ++ '/' :: (List.intercalate PATH_TRANSFORM_FRAGMENT relSegs ++ jsonSuffix))) =
      ('/' :: List.intercalate ['/'] rootSegs) ++ '/' ::
        (KNOWN_FOLDER_NAME ++ '/' :: (List.intercalate PATH_TRANSFORM_FRAGMENT relSegs ++ jsonSuffix)) := by
    rw [hshape, posixNormalize_clean _ (by simp) hsegsclean]
  simp only [buildSchemaPath, utilsJoinPath, hdrop, hreplace, hjoinraw]
  rw [if_neg (by simp)]
  exact hnormalize

/-- C9 (amended): the storage-path mapping is exactly invertible for
every absolute save root and every source path strictly below it whose
components are clean path segments that neither contain the reserved
token `cCCc` nor end in its self-overlapping fragment `cCC`, provided
the transformed file name does not contain the marker directory name
`.cc_mappings`: applying `buildSchemaPath` and then
`schemaFileUriToSourceUri` returns the original source path exactly. -/
theorem c9_storage_path_inverse (rootSegs relSegs : List (List Char))
    (hroot_ne : rootSegs ≠ []) (hrel_ne : relSegs ≠ [])
    (hrootc : ∀ s ∈ rootSegs, cleanSeg s)
    (hrelc : ∀ s ∈ relSegs,
      cleanSeg s ∧ ¬ PATH_TRANSFORM_FRAGMENT <:+: s ∧ ¬ ['c', 'C', 'C'] <:+ s)
    (hmarker : ¬ KNOWN_FOLDER_NAME <:+:
      (List.intercalate PATH_TRANSFORM_FRAGMENT relSegs ++ jsonSuffix)) :
    schemaFileUriToSourceUri
        (buildSchemaPath ('/' :: List.intercalate ['/'] rootSegs)
          (('/' :: List.intercalate ['/'] rootSegs) ++ '/' :: List.intercalate ['/'] relSegs)) =
      ('/' :: List.intercalate ['/'] rootSegs) ++ '/' :: List.intercalate ['/'] relSegs := by
  rw [buildSchemaPath_clean rootSegs relSegs hroot_ne hrel_ne hrootc
    (fun s hs => (hrelc s hs).1)]
  have hIrootz : List.intercalate ['/'] rootSegs ≠ [] :=
    intercalate_ne_nil hroot_ne (fun p hp => (hrootc p hp).1)
  have hIrootpos : 0 < (List.intercalate ['/'] rootSegs).length :=
    List.length_pos.mpr hIrootz
  have hIrelz : List.intercalate ['/'] relSegs ≠ [] :=
    intercalate_ne_nil hrel_ne (fun p hp => ((hrelc p hp).1).1)
  have hfn_ne : List.intercalate PATH_TRANSFORM_FRAGMENT relSegs ++ jsonSuffix ≠ [] := by
    simp [jsonSuffix]
  have hfn_noslash :
      '/' ∉ List.intercalate PATH_TRANSFORM_FRAGMENT relSegs ++ jsonSuffix := by
    intro hx
    rcases List.mem_append.mp hx with hx | hx
    · rcases mem_intercalate hx with hx | ⟨p, hp, hxp⟩
      · simp [PATH_TRANSFORM_FRAGMENT] at hx
      · exact ((hrelc p hp).1).2.1 hxp
    · simp [jsonSuffix] at hx
  -- abbreviations used only in this proof
  set root : List Char := '/' :: List.intercalate ['/'] rootSegs with hrootdef
  set fn : List Char :=
    List.intercalate PATH_TRANSFORM_FRAGMENT relSegs ++ jsonSuffix with hfndef
  -- the last occurrence of the marker name is the marker directory
  have hlast : lastIndexOfL KNOWN_FOLDER_NAME (root ++ '/' :: (KNOWN_FOLDER_NAME ++ '/' :: fn)) =
      ((root.length + 1 : Nat) : Int) := by
    have hfull : root ++ '/' :: (KNOWN_FOLDER_NAME ++ '/' :: fn) =
        (root ++ ['/']) ++ (KNOWN_FOLDER_NAME ++ '/' :: fn) := by simp
    apply lastIndexOfL_eq (m := root.length + 1)
    · rw [hfull, show root.length + 1 = (root ++ ['/']).length by simp, List.drop_left]
      exact List.prefix_append _ _
    · intro q hq hpre
      obtain ⟨k, hk1, rfl⟩ : ∃ k, 1 ≤ k ∧ q = (root ++ ['/']).length + k :=
        ⟨q - (root.length + 1), by omega, by simp; omega⟩
      rw [hfull, List.drop_append] at hpre
      exact marker_no_occ_after hmarker k hk1 hpre
    · simp [KNOWN_FOLDER_NAME]
  have hslice : (root ++ '/' :: (KNOWN_FOLDER_NAME ++ '/' :: fn)).drop (root.length + 14) = fn := by
    rw [show root ++ '/' :: (KNOWN_FOLDER_NAME ++ '/' :: fn) =
      ((root ++ '/' :: KNOWN_FOLDER_NAME) ++ ['/']) ++ fn by simp,
      show root.length + 14 = ((root ++ '/' :: KNOWN_FOLDER_NAME) ++ ['/']).length by
        simp [KNOWN_FOLDER_NAME]]
    exact List.drop_left _ _
  have hstrip : stripJsonSuffix fn = List.intercalate PATH_TRANSFORM_FRAGMENT relSegs := by
    unfold stripJsonSuffix
    rw [if_pos ⟨List.intercalate PATH_TRANSFORM_FRAGMENT relSegs, hfndef.symm⟩]
    rw [hfndef, show (List.intercalate PATH_TRANSFORM_FRAGMENT relSegs ++ jsonSuffix).length -
      jsonSuffix.length = (List.intercalate PATH_TRANSFORM_FRAGMENT relSegs).length by simp]
    exact List.take_left _ _
  have hreplace2 : jsReplaceAll 'c' ['C', 'C', 'c'] ['/']
      (List.intercalate PATH_TRANSFORM_FRAGMENT relSegs) = List.intercalate ['/'] relSegs := by
    unfold jsReplaceAll
    rw [show List.intercalate PATH_TRANSFORM_FRAGMENT relSegs =
      List.intercalate ('c' :: ['C', 'C', 'c']) relSegs from rfl]
    rw [splitOn_intercalate relSegs hrel_ne
      (fun p hp => sepClean_token (hrelc p hp).2.1 (hrelc p hp).2.2)]
  have hdir1 : posixDirname (root ++ '/' :: (KNOWN_FOLDER_NAME ++ '/' :: fn)) =
      root ++ '/' :: KNOWN_FOLDER_NAME := by
    rw [show root ++ '/' :: (KNOWN_FOLDER_NAME ++ '/' :: fn) =
      (root ++ '/' :: KNOWN_FOLDER_NAME) ++ '/' :: fn by simp]
    exact posixDirname_append (by simp [hrootdef]) hfn_ne hfn_noslash
      (by simp [hrootdef, KNOWN_FOLDER_NAME])
  have hdir2 : posixDirname (root ++ '/' :: KNOWN_FOLDER_NAME) = root := by
    refine posixDirname_append (by simp [hrootdef]) (by simp [KNOWN_FOLDER_NAME])
      (by decide) ?_
    rw [hrootdef]
    simp only [List.length_cons]
    omega
  have hjoin2 : utilsJoinPath root [List.intercalate ['/'] relSegs] =
      root ++ '/' :: List.intercalate ['/'] relSegs := by
    unfold utilsJoinPath
    have hraw : posixJoinRaw [root, List.intercalate ['/'] relSegs] =
        root ++ '/' :: List.intercalate ['/'] relSegs := by
      simp [posixJoinRaw, hIrelz, hrootdef]
    rw [hraw, if_neg (by simp [hrootdef])]
    have hshape2 : root ++ '/' :: List.intercalate ['/'] relSegs =
        '/' :: List.intercalate ['/'] (rootSegs ++ relSegs) := by
      rw [intercalate_append_parts rootSegs relSegs hroot_ne hrel_ne, hrootdef]
      simp
    rw [hshape2, posixNormalize_clean _ (by simp [hroot_ne]) ?_, ← hshape2]
    intro x hx
    rcases List.mem_append.mp hx with h | h
    exacts [hrootc x h, ((hrelc x h).1)]
  -- assemble the inverse
  unfold schemaFileUriToSourceUri
  simp only [hlast]
  have htonat : (((KNOWN_FOLDER_NAME.length : Nat) : Int) + ((root.length + 1 : Nat) : Int) +
      1).toNat = root.length + 14 := by
    simp [KNOWN_FOLDER_NAME]
    omega
  rw [htonat, hslice, hstrip, hreplace2, hdir1, hdir2, hjoin2]

/-- C9 (counterexample): for the source path `/r/acCCcb` under root
`/r` — a path containing the reserved token `cCCc` — mapping to the
storage path and back returns `/r/a/b`, not the original path, so the
mapping is not invertible for every source path under the root. -/
theorem c9_counterexample :
    schemaFileUriToSourceUri (buildSchemaPath "/r".toList "/r/acCCcb".toList) =
      "/r/a/b".toList ∧
    schemaFileUriToSourceUri (buildSchemaPath "/r".toList "/r/acCCcb".toList) ≠
      "/r/acCCcb".toList := by
  refine ⟨by decide, by decide⟩

/-- C9 (witness, Scenario D): the round trip is exact for the nested
path `/r/src/a/b.ts` and the top-level path `/r/b.ts` under root
`/r`. -/
theorem c9_storage_path_inverse_witness :
    schemaFileUriToSourceUri (buildSchemaPath "/r".toList "/r/src/a/b.ts".toList) =
      "/r/src/a/b.ts".toList ∧
    schemaFileUriToSourceUri (buildSchemaPath "/r".toList "/r/b.ts".toList) =
      "/r/b.ts".toList := by
  constructor
  · exact c9_storage_path_inverse [['r']] [['s', 'r', 'c'], ['a'], ['b', '.', 't', 's']]
      (by decide) (by decide) (by decide) (by decide) (by decide)
  · exact c9_storage_path_inverse [['r']] [['b', '.', 't', 's']]
      (by decide) (by decide) (by decide) (by decide) (by decide)

/-! ### Schema data model (`types.ts`) -/

/-- `CommentV1` of `types.ts` (current format): a pinned comment/code
pair. -/
structure CurrentComment where
  commentValue : List Char
  commentRange : SRange
  -- The code range does not have to be in the same file; it is found by
  -- following codeRelativePath
  codeRelativePath : List Char
  codeRange : SRange
  codeValue : List Char
  id : Int
deriving DecidableEq, Repr

/-- `ConfigurationV1` of `types.ts`. -/
structure Configuration where
  lineComment : Option (List Char)
deriving DecidableEq, Repr

/-- `FileV1` (the current `File`): the `version: 1` literal is carried
by the type itself, its decoder checks it and its encoder emits it. -/
structure CurrentFile where
  configuration : Configuration
  comments : List CurrentComment
deriving DecidableEq, Repr

/-- `emptySchema()` of `types.ts`. -/
def emptySchema : CurrentFile :=
  { configuration := { lineComment := none }, comments := [] }

/-- `resolveCodePath` of `schema.ts`:
`Utils.joinPath(sourceUri, comment.codeRelativePath)`. -/
def resolveCodePath (sourceUri : List Char) (comment : CurrentComment) : List Char :=
  utilsJoinPath sourceUri [comment.codeRelativePath]

/-! ### Validator (`validation.ts`) -/

/-- `ErrorType` of `validation.ts`. -/
inductive ErrorType where
  | CommentMismatch
  | CodeMismatch
  | BothMismatch
deriving DecidableEq, Repr

/-- `ValidationLocation` of `validation.ts`. -/
structure ValidationLocation where
  uriString : List Char
  range : SRange
deriving DecidableEq, Repr

/-- The `actual`/`expected` pair carried by a finding. -/
structure ActualExpected where
  comment : List Char
  code : List Char
deriving DecidableEq, Repr

/-- `ValidationError` of `validation.ts`. -/
structure ValidationError where
  commentId : Int
  commentUriString : List Char
  commentRange : SRange
  codeLocation : ValidationLocation
  errorType : ErrorType
  actual : ActualExpected
  expected : ActualExpected
  -- Fix is only provided for moved comments
  moveFix : Option CurrentComment
deriving DecidableEq, Repr

/-- The comment-side text extraction of `validate`:
`doc.getText(convertRangeToVS(comment.commentRange))`. -/
def commentTextOf (doc : TextDoc) (c : CurrentComment) : List Char :=
  getTextRange doc.content c.commentRange

/-- The code-side document content of `validate`: the comment's own
document when `codeUri` equals `doc.uri`, otherwise the file read from
the file system (`fs.readFile(codeUri)`), embedded as a total map from
uri to content. -/
def codeDocContentOf (doc : TextDoc) (fsRead : List Char → List Char)
    (c : CurrentComment) : List Char :=
  if resolveCodePath doc.uri c = doc.uri then doc.content
  else fsRead (resolveCodePath doc.uri c)

/-- The code-side text extraction of `validate`. -/
def codeTextOf (doc : TextDoc) (fsRead : List Char → List Char)
    (c : CurrentComment) : List Char :=
  getTextRange (codeDocContentOf doc fsRead c) c.codeRange

/-- The loop body of `validate` for one comment of the schema: extracts
both sides, classifies the mismatch, searches each mismatching side's
whole document for the stored value (`indexOf`), and attaches a
`moveFix` built by `makeFix` when the policy provides one. -/
def validateOne (doc : TextDoc) (fsRead : List Char → List Char)
    (c : CurrentComment) : Option ValidationError :=
  let commentText := commentTextOf doc c
  let codeUri := resolveCodePath doc.uri c
  let codeDocContent := codeDocContentOf doc fsRead c
  let codeText := codeTextOf doc fsRead c
  let makeError := fun (errorType : ErrorType) (moveFix : Option CurrentComment) =>
    { commentId := c.id
      commentUriString := doc.uri
      commentRange := c.commentRange
      errorType := errorType
      codeLocation := { uriString := codeUri, range := c.codeRange }
      actual := { comment := commentText, code := codeText }
      expected := { comment := c.commentValue, code := c.codeValue }
      moveFix := moveFix : ValidationError }
  let commentMatches := commentText = c.commentValue
  let codeMatches := codeText = c.codeValue
  -- If the comment does not match but can be found elsewhere, this is the
  -- index (otherwise -1)
  let commentMovedNewIndex : Int :=
    if commentMatches then -1 else indexOfI doc.content c.commentValue
  let codeMovedNewIndex : Int :=
    if codeMatches then -1 else indexOfI codeDocContent c.codeValue
  -- makeFix builds the new comment object for moved texts
  let makeFixComment := fun (cur : CurrentComment) =>
    { cur with commentRange :=
        ⟨positionAt doc.content commentMovedNewIndex,
         positionAt doc.content (commentMovedNewIndex + cur.commentValue.length)⟩ }
  let makeFixCode := fun (cur : CurrentComment) =>
    { cur with codeRange :=
        ⟨positionAt codeDocContent codeMovedNewIndex,
         positionAt codeDocContent (codeMovedNewIndex + cur.codeValue.length)⟩ }
  if ¬ commentMatches ∧ codeMatches then
    if commentMovedNewIndex ≠ -1 then
      some (makeError .CommentMismatch (some (makeFixComment c)))
    else some (makeError .CommentMismatch none)
  else if commentMatches ∧ ¬ codeMatches then
    if codeMovedNewIndex ≠ -1 then
      some (makeError .CodeMismatch (some (makeFixCode c)))
    else some (makeError .CodeMismatch none)
  else if ¬ commentMatches ∧ ¬ codeMatches then
    if commentMovedNewIndex ≠ -1 ∧ codeMovedNewIndex ≠ -1 then
      some (makeError .BothMismatch (some (makeFixCode (makeFixComment c))))
    else some (makeError .BothMismatch none)
  else none

/-- Port of `validate` from `validation.ts`: the per-comment loop that
pushes at most one error per comment, in schema order. -/
def validate (doc : TextDoc) (fsRead : List Char → List Char)
    (schema : CurrentFile) : List ValidationError :=
  schema.comments.filterMap (validateOne doc fsRead)

/-! ### Validator properties -/

theorem validateOne_eq_none_iff (doc : TextDoc) (fsRead : List Char → List Char)
    (c : CurrentComment) :
    validateOne doc fsRead c = none ↔
      (commentTextOf doc c = c.commentValue ∧ codeTextOf doc fsRead c = c.codeValue) := by
  unfold validateOne
  by_cases h1 : commentTextOf doc c = c.commentValue <;>
    by_cases h2 : codeTextOf doc fsRead c = c.codeValue <;>
      simp [h1, h2] <;> split <;> simp

theorem validateOne_commentId {doc : TextDoc} {fsRead : List Char → List Char}
    {c : CurrentComment} {e : ValidationError}
    (h : validateOne doc fsRead c = some e) : e.commentId = c.id := by
  unfold validateOne at h
  dsimp only at h
  split_ifs at h <;> (injection h with h; rw [← h])

theorem validateOne_errorType {doc : TextDoc} {fsRead : List Char → List Char}
    {c : CurrentComment} {e : ValidationError}
    (h : validateOne doc fsRead c = some e) :
    e.errorType = (if commentTextOf doc c ≠ c.commentValue then
        (if codeTextOf doc fsRead c ≠ c.codeValue then ErrorType.BothMismatch
         else ErrorType.CommentMismatch)
      else ErrorType.CodeMismatch) := by
  by_cases h1 : commentTextOf doc c = c.commentValue <;>
    by_cases h2 : codeTextOf doc fsRead c = c.codeValue
  · exact absurd h (by rw [(validateOne_eq_none_iff doc fsRead c).mpr ⟨h1, h2⟩]; simp)
  all_goals (
    unfold validateOne at h
    dsimp only at h
    split_ifs at h <;> simp_all <;> rw [← h])

theorem mem_validate {doc : TextDoc} {fsRead : List Char → List Char}
    {schema : CurrentFile} {e : ValidationError} :
    e ∈ validate doc fsRead schema ↔
      ∃ c ∈ schema.comments, validateOne doc fsRead c = some e := by
  unfold validate
  exact List.mem_filterMap

/-- C4: `validate` emits a finding for a comment exactly when the text
extracted at its `commentRange` differs from `commentValue` or the text
extracted at its `codeRange` (in the document its `codeRelativePath`
resolves to) differs from `codeValue`; the finding's `errorType` is
`CommentMismatch`/`CodeMismatch`/`BothMismatch` according to the
differing side(s), and a schema whose stored values all match the live
text yields zero findings. -/
theorem c4_validate_iff (doc : TextDoc) (fsRead : List Char → List Char)
    (schema : CurrentFile) (hids : (schema.comments.map (fun c => c.id)).Nodup) :
    (∀ c ∈ schema.comments,
      ((∃ e ∈ validate doc fsRead schema, e.commentId = c.id) ↔
        (commentTextOf doc c ≠ c.commentValue ∨ codeTextOf doc fsRead c ≠ c.codeValue)) ∧
      (∀ e ∈ validate doc fsRead schema, e.commentId = c.id →
        e.errorType = (if commentTextOf doc c ≠ c.commentValue then
            (if codeTextOf doc fsRead c ≠ c.codeValue then ErrorType.BothMismatch
             else ErrorType.CommentMismatch)
          else ErrorType.CodeMismatch))) ∧
    ((∀ c ∈ schema.comments, commentTextOf doc c = c.commentValue ∧
        codeTextOf doc fsRead c = c.codeValue) →
      validate doc fsRead schema = []) := by
  have hinj : ∀ x ∈ schema.comments, ∀ y ∈ schema.comments, x.id = y.id → x = y :=
    List.inj_on_of_nodup_map hids
  constructor
  · intro c hc
    constructor
    · constructor
      · rintro ⟨e, he, heid⟩
        obtain ⟨c', hc', hco⟩ := mem_validate.mp he
        have hcc : c' = c := hinj c' hc' c hc (by rw [← validateOne_commentId hco, heid])
        subst hcc
        by_contra hnot
        push_neg at hnot
        rw [(validateOne_eq_none_iff doc fsRead c').mpr ⟨hnot.1, hnot.2⟩] at hco
        cases hco
      · intro hmm
        have hne : validateOne doc fsRead c ≠ none := by
          intro h
          rcases (validateOne_eq_none_iff doc fsRead c).mp h with ⟨ha, hb⟩
          rcases hmm with h | h
          exacts [h ha, h hb]
        obtain ⟨e, he⟩ := Option.ne_none_iff_exists'.mp hne
        exact ⟨e, mem_validate.mpr ⟨c, hc, he⟩, validateOne_commentId he⟩
    · intro e he heid
      obtain ⟨c', hc', hco⟩ := mem_validate.mp he
      have hcc : c' = c := hinj c' hc' c hc (by rw [← validateOne_commentId hco, heid])
      subst hcc
      exact validateOne_errorType hco
  · intro hall
    unfold validate
    rw [List.filterMap_eq_nil]
    intro c hc
    exact (validateOne_eq_none_iff doc fsRead c).mpr (hall c hc)

/-- A document and schema for the C4 witness: both stored values
reproduce the live text exactly. -/
def c4doc : TextDoc := ⟨"/a.ts".toList, "q
w".toList⟩

def c4schema : CurrentFile :=
  { configuration := { lineComment := none }
    comments := [⟨['q'], ⟨⟨0, 0⟩, ⟨0, 1⟩⟩, [], ⟨⟨1, 0⟩, ⟨1, 1⟩⟩, ['w'], 0⟩] }

/-- C4 (witness): validating a schema against text that exactly
reproduces its stored values at their stored ranges yields zero
findings. -/
theorem c4_validate_iff_witness :
    validate c4doc (fun _ => []) c4schema = [] :=
  (c4_validate_iff c4doc (fun _ => []) c4schema (by decide)).2 (by decide)

theorem firstOcc?_is_none {pat : List Char} :
    ∀ {s : List Char}, firstOcc? pat s = none → ∀ i, ¬ pat <+: s.drop i := by
  intro s
  induction s with
  | nil =>
    intro h i hp
    rw [firstOcc?] at h
    split at h
    · cases h
    · rename_i hno
      rw [List.drop_nil] at hp
      exact hno (by simpa using hp)
  | cons c rest ih =>
    intro h
    rw [firstOcc?] at h
    split at h
    · cases h
    · rename_i hno
      have hrest : firstOcc? pat rest = none := by
        cases heq : firstOcc? pat rest with
        | none => rfl
        | some j => rw [heq] at h; cases h
      intro i
      cases i with
      | zero => simpa using hno
      | succ i0 => simpa using ih hrest i0

/-- The comment used by the C5 counterexample: both sides drifted, the
comment value still occurs verbatim in the document, the code value
does not. -/
def cBothCE : CurrentComment :=
  ⟨"//".toList, ⟨⟨0, 0⟩, ⟨0, 2⟩⟩, [], ⟨⟨1, 0⟩, ⟨1, 6⟩⟩, "zzz".toList, 0⟩

def docBothCE : TextDoc := ⟨"/a.ts".toList, "ab\nfoo();\n//".toList⟩

/-- C5 (counterexample): the comment side of `cBothCE` does not match
and its stored value `"//"` still occurs verbatim in the document (at
offset 10), yet because the code side also mismatches and its value is
found nowhere, the single emitted finding carries no `moveFix` at
all — contradicting the claim that every mismatching side with a
verbatim occurrence gets a `moveFix` for that side. -/
theorem c5_moveFix_counterexample :
    commentTextOf docBothCE cBothCE ≠ cBothCE.commentValue ∧
    (∃ i : Nat, cBothCE.commentValue <+: docBothCE.content.drop i) ∧
    (validate docBothCE (fun _ => []) ⟨⟨none⟩, [cBothCE]⟩).length = 1 ∧
    (∀ e ∈ validate docBothCE (fun _ => []) ⟨⟨none⟩, [cBothCE]⟩, e.moveFix = none) := by
  refine ⟨by decide, ⟨10, by decide⟩, by decide, by decide⟩

/-- C5 (amended): the `moveFix` policy of `validate`.  For a finding on
comment `c`: when exactly one side mismatches and its stored value
occurs in that side's document, the finding carries a `moveFix` whose
range for that side spans the first occurrence, from
`positionAt(index)` to `positionAt(index + value.length)`; when both
sides mismatch, a combined `moveFix` is attached only if both stored
values are found, and no `moveFix` at all is attached otherwise. -/
theorem c5_moveFix_policy (doc : TextDoc) (fsRead : List Char → List Char)
    (schema : CurrentFile) (hids : (schema.comments.map (fun c => c.id)).Nodup) :
    ∀ c ∈ schema.comments, ∀ e ∈ validate doc fsRead schema, e.commentId = c.id →
      ((commentTextOf doc c ≠ c.commentValue → codeTextOf doc fsRead c = c.codeValue →
        (∃ i : Nat, c.commentValue <+: doc.content.drop i) →
        ∃ i : Nat, c.commentValue <+: doc.content.drop i ∧
          (∀ j, j < i → ¬ c.commentValue <+: doc.content.drop j) ∧
          e.moveFix = some { c with commentRange :=
            ⟨positionAt doc.content (i : Int),
             positionAt doc.content ((i : Int) + c.commentValue.length)⟩ }) ∧
      (commentTextOf doc c = c.commentValue → codeTextOf doc fsRead c ≠ c.codeValue →
        (∃ i : Nat, c.codeValue <+: (codeDocContentOf doc fsRead c).drop i) →
        ∃ i : Nat, c.codeValue <+: (codeDocContentOf doc fsRead c).drop i ∧
          (∀ j, j < i → ¬ c.codeValue <+: (codeDocContentOf doc fsRead c).drop j) ∧
          e.moveFix = some { c with codeRange :=
            ⟨positionAt (codeDocContentOf doc fsRead c) (i : Int),
             positionAt (codeDocContentOf doc fsRead c) ((i : Int) + c.codeValue.length)⟩ }) ∧
      (commentTextOf doc c ≠ c.commentValue → codeTextOf doc fsRead c ≠ c.codeValue →
        ((¬ ∃ i : Nat, c.commentValue <+: doc.content.drop i) ∨
         (¬ ∃ i : Nat, c.codeValue <+: (codeDocContentOf doc fsRead c).drop i)) →
        e.moveFix = none) ∧
      (commentTextOf doc c ≠ c.commentValue → codeTextOf doc fsRead c ≠ c.codeValue →
        (∃ i : Nat, c.commentValue <+: doc.content.drop i) →
        (∃ i : Nat, c.codeValue <+: (codeDocContentOf doc fsRead c).drop i) →
        ∃ i j : Nat, c.commentValue <+: doc.content.drop i ∧
          (∀ i0, i0 < i → ¬ c.commentValue <+: doc.content.drop i0) ∧
          c.codeValue <+: (codeDocContentOf doc fsRead c).drop j ∧
          (∀ j0, j0 < j → ¬ c.codeValue <+: (codeDocContentOf doc fsRead c).drop j0) ∧
          e.moveFix = some { c with
            commentRange :=
              ⟨positionAt doc.content (i : Int),
               positionAt doc.content ((i : Int) + c.commentValue.length)⟩,
            codeRange :=
              ⟨positionAt (codeDocContentOf doc fsRead c) (j : Int),
               positionAt (codeDocContentOf doc fsRead c) ((j : Int) + c.codeValue.length)⟩ })) := by
  have hinj : ∀ x ∈ schema.comments, ∀ y ∈ schema.comments, x.id = y.id → x = y :=
    List.inj_on_of_nodup_map hids
  intro c hc e he heid
  obtain ⟨c0, hc0, hco⟩ := mem_validate.mp he
  have hcc : c0 = c := hinj c0 hc0 c hc (by rw [← validateOne_commentId hco, heid])
  subst hcc
  refine ⟨?_, ?_, ?_, ?_⟩
  · intro h1 h2 hex
    cases heq : firstOcc? c0.commentValue doc.content with
    | none =>
      obtain ⟨i, hi⟩ := hex
      exact absurd hi (firstOcc?_is_none heq i)
    | some m =>
      refine ⟨m, firstOcc?_some_occ heq, fun j hj => firstOcc?_min heq hj, ?_⟩
      have hidx : indexOfI doc.content c0.commentValue = (m : Int) := by
        unfold indexOfI; rw [heq]
      unfold validateOne at hco
      dsimp only at hco
      rw [if_pos ⟨h1, h2⟩, if_neg h1, hidx,
        if_pos (show (m : Int) ≠ -1 by omega)] at hco
      injection hco with hco
      rw [← hco]
  · intro h1 h2 hex
    cases heq : firstOcc? c0.codeValue (codeDocContentOf doc fsRead c0) with
    | none =>
      obtain ⟨i, hi⟩ := hex
      exact absurd hi (firstOcc?_is_none heq i)
    | some m =>
      refine ⟨m, firstOcc?_some_occ heq, fun j hj => firstOcc?_min heq hj, ?_⟩
      have hidx : indexOfI (codeDocContentOf doc fsRead c0) c0.codeValue = (m : Int) := by
        unfold indexOfI; rw [heq]
      unfold validateOne at hco
      dsimp only at hco
      rw [if_neg (fun hcon => hcon.1 h1), if_pos ⟨h1, h2⟩, if_neg h2, hidx,
        if_pos (show (m : Int) ≠ -1 by omega)] at hco
      injection hco with hco
      rw [← hco]
  · intro h1 h2 hmiss
    unfold validateOne at hco
    dsimp only at hco
    rw [if_neg (fun hcon => h2 hcon.2), if_neg (fun hcon => h1 hcon.1),
      if_pos ⟨h1, h2⟩] at hco
    have hcond : ¬ ((if commentTextOf doc c0 = c0.commentValue then -1
          else indexOfI doc.content c0.commentValue) ≠ -1 ∧
        (if codeTextOf doc fsRead c0 = c0.codeValue then -1
          else indexOfI (codeDocContentOf doc fsRead c0) c0.codeValue) ≠ -1) := by
      rw [if_neg h1, if_neg h2]
      rcases hmiss with hm | hm
      · have hnone : firstOcc? c0.commentValue doc.content = none := by
          apply firstOcc?_eq_none
          intro i hi
          exact hm ⟨i, hi⟩
        intro hcon
        exact hcon.1 (by unfold indexOfI; rw [hnone])
      · have hnone : firstOcc? c0.codeValue (codeDocContentOf doc fsRead c0) = none := by
          apply firstOcc?_eq_none
          intro i hi
          exact hm ⟨i, hi⟩
        intro hcon
        exact hcon.2 (by unfold indexOfI; rw [hnone])
    rw [if_neg hcond] at hco
    injection hco with hco
    rw [← hco]
  · intro h1 h2 hex1 hex2
    cases heq1 : firstOcc? c0.commentValue doc.content with
    | none =>
      obtain ⟨i, hi⟩ := hex1
      exact absurd hi (firstOcc?_is_none heq1 i)
    | some m1 =>
      cases heq2 : firstOcc? c0.codeValue (codeDocContentOf doc fsRead c0) with
      | none =>
        obtain ⟨i, hi⟩ := hex2
        exact absurd hi (firstOcc?_is_none heq2 i)
      | some m2 =>
        refine ⟨m1, m2, firstOcc?_some_occ heq1, fun j hj => firstOcc?_min heq1 hj,
          firstOcc?_some_occ heq2, fun j hj => firstOcc?_min heq2 hj, ?_⟩
        have hidx1 : indexOfI doc.content c0.commentValue = (m1 : Int) := by
          unfold indexOfI; rw [heq1]
        have hidx2 : indexOfI (codeDocContentOf doc fsRead c0) c0.codeValue = (m2 : Int) := by
          unfold indexOfI; rw [heq2]
        unfold validateOne at hco
        dsimp only at hco
        rw [if_neg (fun hcon => h2 hcon.2), if_neg (fun hcon => h1 hcon.1),
          if_pos ⟨h1, h2⟩, if_neg h1, if_neg h2, hidx1, hidx2,
          if_pos ⟨show (m1 : Int) ≠ -1 by omega, show (m2 : Int) ≠ -1 by omega⟩] at hco
        injection hco with hco
        rw [← hco]

def docB5 : TextDoc := ⟨"/a.ts".toList, "//\nbar();\nfoo();".toList⟩

def cB5 : CurrentComment :=
  ⟨"//".toList, ⟨⟨0, 0⟩, ⟨0, 2⟩⟩, [], ⟨⟨1, 0⟩, ⟨1, 6⟩⟩, "foo();".toList, 0⟩

def schemaB5 : CurrentFile := ⟨⟨none⟩, [cB5]⟩

/-- The single finding emitted in Scenario B. -/
def eB5 : ValidationError :=
  { commentId := 0
    commentUriString := "/a.ts".toList
    commentRange := ⟨⟨0, 0⟩, ⟨0, 2⟩⟩
    codeLocation := ⟨"/a.ts".toList, ⟨⟨1, 0⟩, ⟨1, 6⟩⟩⟩
    errorType := .CodeMismatch
    actual := ⟨"//".toList, "bar();".toList⟩
    expected := ⟨"//".toList, "foo();".toList⟩
    moveFix := some { cB5 with codeRange := ⟨⟨2, 0⟩, ⟨2, 6⟩⟩ } }

/-- C5 (witness, Scenario B): with `codeValue` `"foo();"` replaced by
`"bar();"` at its stored range and one other verbatim occurrence of
`"foo();"`, validation returns exactly one `CodeMismatch` finding whose
`moveFix` spans the first (and only other) occurrence. -/
theorem c5_moveFix_policy_witness :
    validate docB5 (fun _ => []) schemaB5 = [eB5] ∧
    eB5.errorType = ErrorType.CodeMismatch ∧
    eB5.actual.code = "bar();".toList ∧
    eB5.expected.code = "foo();".toList ∧
    (∃ i : Nat, cB5.codeValue <+: (codeDocContentOf docB5 (fun _ => []) cB5).drop i ∧
      (∀ j, j < i → ¬ cB5.codeValue <+: (codeDocContentOf docB5 (fun _ => []) cB5).drop j) ∧
      eB5.moveFix = some { cB5 with codeRange :=
        ⟨positionAt (codeDocContentOf docB5 (fun _ => []) cB5) (i : Int),
         positionAt (codeDocContentOf docB5 (fun _ => []) cB5)
           ((i : Int) + cB5.codeValue.length)⟩ }) := by
  refine ⟨by decide, by decide, by decide, by decide, ?_⟩
  exact ((c5_moveFix_policy docB5 (fun _ => []) schemaB5 (by decide) cB5 (by decide)
    eB5 (by decide) (by decide)).2.1) (by decide) (by decide) ⟨10, by decide⟩

theorem filterMap_congr_mem {α β : Type} {f g : α → Option β} :
    ∀ {l : List α}, (∀ a ∈ l, f a = g a) → l.filterMap f = l.filterMap g := by
  intro l
  induction l with
  | nil => intro _; rfl
  | cons a l ih =>
    intro h
    rw [List.filterMap_cons, List.filterMap_cons, h a (by simp),
      ih (fun x hx => h x (by simp [hx]))]

/-- A document and a schema whose only comment points its code side at
a different file (`codeRelativePath = "sub"`). -/
def doc7 : TextDoc := ⟨"/a.ts".toList, "q".toList⟩

def schema7 : CurrentFile :=
  ⟨⟨none⟩, [⟨['q'], ⟨⟨0, 0⟩, ⟨0, 1⟩⟩, "sub".toList, ⟨⟨0, 0⟩, ⟨0, 1⟩⟩, ['x'], 0⟩]⟩

/-- C7 (counterexample): `validate` reads code-target files from the
file system: on the same document snapshot and schema, two file-system
states that differ only in the contents of the comment's code-target
file produce different findings, so `validate` is not free of I/O and
not a function of the document snapshot and schema alone. -/
theorem c7_io_counterexample :
    (∀ c ∈ schema7.comments, resolveCodePath doc7.uri c ≠ doc7.uri) ∧
    validate doc7 (fun _ => ['x']) schema7 ≠ validate doc7 (fun _ => ['y']) schema7 := by
  refine ⟨by decide, by decide⟩

/-- C7 (amended): `validate` is deterministic and non-mutating — in
this embedding it is a pure function of the document snapshot, the
schema, and the contents of the code-target files — and it performs no
file-system read when every comment's `codeRelativePath` resolves to
the comment's own document: the result is then independent of the file
system entirely. -/
theorem c7_validate_frame (doc : TextDoc) (fs1 fs2 : List Char → List Char)
    (schema : CurrentFile)
    (h : ∀ c ∈ schema.comments, resolveCodePath doc.uri c = doc.uri) :
    validate doc fs1 schema = validate doc fs2 schema := by
  unfold validate
  apply filterMap_congr_mem
  intro c hc
  have hcode : codeDocContentOf doc fs1 c = codeDocContentOf doc fs2 c := by
    unfold codeDocContentOf
    rw [if_pos (h c hc), if_pos (h c hc)]
  have htext : codeTextOf doc fs1 c = codeTextOf doc fs2 c := by
    unfold codeTextOf
    rw [hcode]
  unfold validateOne
  rw [htext, hcode]

def doc7w : TextDoc := ⟨"/a.ts".toList, "q\nw".toList⟩

def schema7w : CurrentFile :=
  ⟨⟨none⟩, [⟨['q'], ⟨⟨0, 0⟩, ⟨0, 1⟩⟩, [], ⟨⟨1, 0⟩, ⟨1, 1⟩⟩, ['w'], 0⟩]⟩

/-- C7 (witness): for a schema whose only comment targets its own
document, two arbitrary distinct file systems give identical
findings. -/
theorem c7_validate_frame_witness :
    validate doc7w (fun _ => ['x']) schema7w = validate doc7w (fun _ => ['y']) schema7w :=
  c7_validate_frame doc7w (fun _ => ['x']) (fun _ => ['y']) schema7w (by decide)

/-! ### Persistence (`schema.ts`): serialization and the io-ts decoder

`JSON.stringify`/`JSON.parse` are embedded at the level of a JSON value
tree; `crypto.md5` is an abstract parameter `hashFn` over the
serialized value. -/

/-- A JSON document. -/
inductive Json where
  | null
  | str (s : List Char)
  | num (n : Int)
  | arr (xs : List Json)
  | obj (fields : List (String × Json))

/-- Property access on a JSON object, as the io-ts validators perform
it field by field. -/
def jlookup : List (String × Json) → String → Option Json
  | [], _ => none
  | (k, v) :: rest, key => if key = k then some v else jlookup rest key

/-- The JSON value `JSON.stringify` produces for a `Position`. -/
def encodePosition (p : Position) : Json :=
  .obj [("line", .num p.line), ("char", .num p.char)]

def encodeRange (r : SRange) : Json :=
  .obj [("start", encodePosition r.start), ("end", encodePosition r.«end»)]

def encodeComment (c : CurrentComment) : Json :=
  .obj [("commentValue", .str c.commentValue), ("commentRange", encodeRange c.commentRange),
    ("codeRelativePath", .str c.codeRelativePath), ("codeRange", encodeRange c.codeRange),
    ("codeValue", .str c.codeValue), ("id", .num c.id)]

def encodeConfiguration (cfg : Configuration) : Json :=
  .obj [("lineComment", match cfg.lineComment with | none => .null | some s => .str s)]

/-- The JSON value of a serialized `File` (`version` is the literal 1
carried by the `CurrentFile` type). -/
def encodeFile (f : CurrentFile) : Json :=
  .obj [("version", .num 1), ("configuration", encodeConfiguration f.configuration),
    ("comments", .arr (f.comments.map encodeComment))]

/-- The io-ts `Position` codec. -/
def decodePosition : Json → Option Position
  | .obj fields =>
    match jlookup fields "line", jlookup fields "char" with
    | some (.num l), some (.num ch) => some ⟨l, ch⟩
    | _, _ => none
  | _ => none

/-- The io-ts `Range` codec. -/
def decodeRange : Json → Option SRange
  | .obj fields =>
    match (jlookup fields "start").bind decodePosition,
        (jlookup fields "end").bind decodePosition with
    | some s, some e => some ⟨s, e⟩
    | _, _ => none
  | _ => none

/-- The io-ts `CommentV1` codec. -/
def decodeComment : Json → Option CurrentComment
  | .obj fields =>
    match jlookup fields "commentValue", (jlookup fields "commentRange").bind decodeRange,
        jlookup fields "codeRelativePath", (jlookup fields "codeRange").bind decodeRange,
        jlookup fields "codeValue", jlookup fields "id" with
    | some (.str cv), some cr, some (.str crp), some dr, some (.str dv), some (.num i) =>
      some ⟨cv, cr, crp, dr, dv, i⟩
    | _, _, _, _, _, _ => none
  | _ => none

/-- The io-ts `ConfigurationV1` codec (`lineComment` is
`t.union [t.null, t.string]`, tried in that order). -/
def decodeConfiguration : Json → Option Configuration
  | .obj fields =>
    match jlookup fields "lineComment" with
    | some .null => some ⟨none⟩
    | some (.str s) => some ⟨some s⟩
    | _ => none
  | _ => none

/-- Element-wise validation of the comments array (io-ts
`t.array(CommentV1)`). -/
def decodeCommentList : List Json → Option (List CurrentComment)
  | [] => some []
  | x :: xs =>
    match decodeComment x, decodeCommentList xs with
    | some c, some cs => some (c :: cs)
    | _, _ => none

def decodeComments : Json → Option (List CurrentComment)
  | .arr xs => decodeCommentList xs
  | _ => none

/-- The io-ts `File` codec (`FileV1`): requires `version` to be the
literal 1 and all declared properties to validate. -/
def File.decode : Json → Option CurrentFile
  | .obj fields =>
    match jlookup fields "version",
        (jlookup fields "configuration").bind decodeConfiguration,
        (jlookup fields "comments").bind decodeComments with
    | some (.num 1), some cfg, some cs => some ⟨cfg, cs⟩
    | _, _, _ => none
  | _ => none

/-- `migrateToLatestFormat` of `schema.ts` (the identity at version 1). -/
def migrateToLatestFormat (file : CurrentFile) : CurrentFile := file

theorem decodeComment_encode (c : CurrentComment) :
    decodeComment (encodeComment c) = some c := rfl

theorem decodeComments_encode (cs : List CurrentComment) :
    decodeComments (.arr (cs.map encodeComment)) = some cs := by
  show decodeCommentList (cs.map encodeComment) = some cs
  induction cs with
  | nil => rfl
  | cons c rest ih => simp [decodeCommentList, decodeComment_encode c, ih]

/-- Decoding a serialized `File` recovers it exactly. -/
theorem File_decode_encode (f : CurrentFile) : File.decode (encodeFile f) = some f := by
  obtain ⟨⟨lc⟩, cs⟩ := f
  have hconf : decodeConfiguration (encodeConfiguration ⟨lc⟩) = some ⟨lc⟩ := by
    cases lc with
    | none => rfl
    | some s => rfl
  unfold File.decode encodeFile
  simp [jlookup, hconf, decodeComments_encode]

/-! ### Schema store persistence and the per-root model
(`schema.ts` / `SchemaIndex.ts`) -/

/-- The durable bytes: storage path to persisted JSON document (later
writes shadow earlier ones). -/
def DiskState := List (List Char × Json)

/-- Association lookup keyed by a path/uri string. -/
def lookupA {α : Type} : List (List Char × α) → List Char → Option α
  | [], _ => none
  | (k, v) :: rest, key => if key = k then some v else lookupA rest key

/-- Port of `saveSchema` of `schema.ts`: serialize the schema, write it
at `buildSchemaPath(saveRoot, sourceFilePath)`, and return the save uri
and the content hash of the written bytes. -/
def saveSchemaStore (hashFn : Json → List Char) (saveRoot sourceFilePath : List Char)
    (schema : CurrentFile) (disk : DiskState) : (List Char × List Char) × DiskState :=
  let saveUri := buildSchemaPath saveRoot sourceFilePath
  let contents := encodeFile schema
  ((saveUri, hashFn contents), ((saveUri, contents) :: disk : List (List Char × Json)))

/-- Port of `loadSchema` of `schema.ts`: `none` when no schema file
exists (not an error), a decode error when the bytes do not validate as
a `File`, otherwise the migrated schema and the content hash. -/
def loadSchemaStore (hashFn : Json → List Char) (saveRoot sourceFilePath : List Char)
    (disk : DiskState) : Except (List Char) (Option (CurrentFile × List Char)) :=
  let schemaPath := buildSchemaPath saveRoot sourceFilePath
  match lookupA (α := Json) disk schemaPath with
  | none => .ok none
  | some contents =>
    match File.decode contents with
    | none => .error ("Could not decode schema at ".toList ++ sourceFilePath)
    | some f => .ok (some (migrateToLatestFormat f, hashFn contents))

/-- C8: saving a valid `File` and loading it back from the same root
and source path returns a schema equal to the original (round trip
through serialization, the io-ts `File` decoder and
`migrateToLatestFormat`), when nothing else touches the stored
bytes. -/
theorem c8_save_load_roundtrip (hashFn : Json → List Char)
    (saveRoot sourceFilePath : List Char) (f : CurrentFile) (disk : DiskState) :
    loadSchemaStore hashFn saveRoot sourceFilePath
        ((saveSchemaStore hashFn saveRoot sourceFilePath f disk).2) =
      .ok (some (f, hashFn (encodeFile f))) := by
  unfold loadSchemaStore saveSchemaStore
  simp [lookupA, File_decode_encode, migrateToLatestFormat]

/-- A cache entry of the `SchemaModel` (`SchemaMap` value). -/
structure CacheEntry where
  schema : CurrentFile
  hash : List Char
  hasUnsavedChanges : Bool

/-- The `SchemaModel` state: the disk plus the in-memory schema map. -/
structure ModelState where
  disk : DiskState
  cache : List (List Char × CacheEntry)

def EMPTY_SCHEMA_HASH : List Char := ['0']

/-- `loadSchemaOrEmpty` of `SchemaIndex.ts`. -/
def loadSchemaOrEmpty (hashFn : Json → List Char) (saveRoot sourceFileUri : List Char)
    (disk : DiskState) : Except (List Char) (CurrentFile × List Char) :=
  match loadSchemaStore hashFn saveRoot sourceFileUri disk with
  | .error msg => .error msg
  | .ok none => .ok (emptySchema, EMPTY_SCHEMA_HASH)
  | .ok (some (schema, hash)) => .ok (schema, hash)

/-- `getSchemaByUri` of `SchemaIndex.ts`: returns the cache entry,
inserting a fresh empty entry when the uri is missing (a cache
mutation). -/
def getSchemaByUri (st : ModelState) (uri : List Char) : CacheEntry × ModelState :=
  match lookupA st.cache uri with
  | some e => (e, st)
  | none =>
    let e : CacheEntry := ⟨emptySchema, EMPTY_SCHEMA_HASH, false⟩
    (e, { st with cache := (uri, e) :: st.cache })

/-- `saveSchemaByUri` of `SchemaIndex.ts`: read the hash currently on
disk, compare it with the last-seen hash when `checkHash` is set, and
either fail before writing or write and refresh the cache. -/
def saveSchemaByUri (hashFn : Json → List Char) (rootUri : List Char) (st : ModelState)
    (uri : List Char) (schema : CurrentFile) (checkHash : Bool) :
    Except (List Char) (List Char) × ModelState :=
  match loadSchemaOrEmpty hashFn rootUri uri st.disk with
  | .error msg => (.error msg, st)
  | .ok (_, currentHash) =>
    let es := getSchemaByUri st uri
    if checkHash ∧ es.1.hash ≠ currentHash then
      (.error ("schema changed outside editor".toList), es.2)
    else
      let swd := saveSchemaStore hashFn rootUri uri schema es.2.disk
      (.ok swd.1.1, { disk := swd.2, cache := (uri, ⟨schema, swd.1.2, false⟩) :: es.2.cache })

/-- C6: when `checkHash` is set and the last-seen hash differs from the
hash of the bytes currently on disk, `saveSchemaByUri` fails with the
concurrent-modification error and performs no write: the returned state
is exactly the input state — disk, cached schema and cached hash all
unchanged. -/
theorem c6_save_conflict (hashFn : Json → List Char) (rootUri uri : List Char)
    (st : ModelState) (schema s0 : CurrentFile) (entry : CacheEntry)
    (currentHash : List Char)
    (hcache : lookupA st.cache uri = some entry)
    (hload : loadSchemaOrEmpty hashFn rootUri uri st.disk = .ok (s0, currentHash))
    (hne : entry.hash ≠ currentHash) :
    saveSchemaByUri hashFn rootUri st uri schema true =
      (.error ("schema changed outside editor".toList), st) := by
  unfold saveSchemaByUri
  rw [hload]
  unfold getSchemaByUri
  rw [hcache]
  dsimp only
  rw [if_pos ⟨rfl, hne⟩]

/-- A model state for the C6 witness: the cache has seen hash `"0"`
while the disk now holds a schema whose hash is `"H"`. -/
def c6state : ModelState :=
  { disk := [(buildSchemaPath "/r".toList "/r/a.ts".toList, encodeFile emptySchema)]
    cache := [("/r/a.ts".toList, ⟨emptySchema, ['0'], false⟩)] }

def c6hash : Json → List Char := fun _ => ['H']

/-- C6 (witness, Scenario C): a save with `checkHash` after an
out-of-band write fails with the concurrent-modification error and
leaves the state untouched. -/
theorem c6_save_conflict_witness :
    saveSchemaByUri c6hash "/r".toList c6state "/r/a.ts".toList emptySchema true =
      (.error ("schema changed outside editor".toList), c6state) :=
  c6_save_conflict c6hash "/r".toList "/r/a.ts".toList c6state emptySchema emptySchema
    ⟨emptySchema, ['0'], false⟩ ['H'] rfl rfl (by decide)

end CodeCouplet
